import Mathlib

/-!
# Generic project manager: file lists, placeholder expansion, raw list store

A shallow embedding of `src/plugins/genericprojectmanager/genericproject.cpp`.

* A `QString` is the list of its characters; `QString` comparison (`operator<`,
  `operator>`) is the lexicographic order on character codes, which is the
  order Mathlib puts on `List Char`.
* A `QStringList` is a list of strings.
* A `QHash<QString, QString>` is a finite map, embedded as a lookup function.
* The Qt services the code calls (directory arithmetic, the existence check,
  the process environment, the iteration order of a `QSet`) are collected in
  the structure `Host` and stay arbitrary in every theorem that does not fix
  them.
-/

namespace GenericProjectManager

/-- A `QString`, as the list of its characters. -/
abbrev QString := List Char

/-- A `QStringList`. -/
abbrev QStringList := List QString

/-! ## Qt containers -/

/-- Modelled from the spec: `Utils::indexOf` of `utils/algorithm.h` is not among
the sources at hand. It returns the position of the first element of the
container that satisfies the predicate, and `-1` when no element does. -/
def Utils.indexOf (container : QStringList) (function : QString → Bool) : Int :=
  if List.findIdx function container < container.length then
    (List.findIdx function container : Int)
  else
    -1

/-- The method `QList::insert(int i, const T &value)`: "If `i <= 0`, the value is
prepended to the list. If `i >= size()`, the value is appended to the list."
Otherwise the value is put in front of the element at position `i`. -/
def QList.insert (list : QStringList) (i : Int) (value : QString) : QStringList :=
  if i ≤ 0 then value :: list
  else if (list.length : Int) ≤ i then list ++ [value]
  else list.take i.toNat ++ value :: list.drop i.toNat

/-- The method `QList::removeOne`: removes the first occurrence of the value, if any. -/
def QList.removeOne (list : QStringList) (value : QString) : QStringList :=
  list.erase value

/-- The method `QList::indexOf`: position of the first occurrence, `-1` when absent. -/
def QList.indexOf (list : QStringList) (value : QString) : Int :=
  if List.indexOf value list < list.length then (List.indexOf value list : Int) else -1

/-- The method `QList::removeAt(i)` for a valid index `i`. -/
def QList.removeAt (list : QStringList) (i : Int) : QStringList :=
  list.eraseIdx i.toNat

/-- The method `QStringList::removeDuplicates`: keeps the first occurrence of every
string, in the order of the list. -/
def QStringList.removeDuplicates : QStringList → QStringList
  | [] => []
  | x :: xs => x :: (QStringList.removeDuplicates xs).filter (fun y => decide (y ≠ x))

/-- Modelled from the spec: `Utils::sort` of `utils/algorithm.h` is not among
the sources at hand. It sorts the container in place with `operator<`; on
strings the outcome is the one sorted rearrangement of the container. -/
def Utils.sort (list : QStringList) : QStringList :=
  list.insertionSort (· ≤ ·)

/-! ## The sorted insertion of `genericproject.cpp` -/

/-- The function `insertSorted(QStringList *list, const QString &value)`: looks for the
first element greater than `value` and inserts at the position found. -/
def insertSorted (list : QStringList) (value : QString) : QStringList :=
  QList.insert list (Utils.indexOf list (fun s => decide (s > value))) value

/-! ## Text files: `saveRawList` and `readLines` -/

/-- The text `saveRawList` streams into the file: every entry of the list
followed by a line feed (`stream << filePath << QLatin1Char('\n')`). A file
is embedded as the text it holds: the codec of the stream is taken to write
and read every character unchanged, and the text mode of the device to leave
a line feed a line feed (as it does outside Windows). -/
def saveRawList (rawList : QStringList) : List Char :=
  rawList.flatMap (fun filePath => filePath ++ ['\n'])

/-- The method `QTextStream::readLine` on the text that is still unread: `none` (a null
string) at the end of the text; otherwise the characters up to the next line
feed, or to the end of the text, without the line feed and without one
carriage return in front of it (the returned line has no trailing "\n" or
"\r\n"), together with the text left after the line. -/
def QTextStream.readLine (stream : List Char) : Option (QString × List Char) :=
  if stream = [] then none
  else
    let line := stream.takeWhile (fun c => decide (c ≠ '\n'))
    let rest := (stream.dropWhile (fun c => decide (c ≠ '\n'))).drop 1
    some (if line.getLast? = some '\r' then line.dropLast else line, rest)

/-- The `forever` loop of `readLines`, with a bound on the number of rounds;
`none` stands for a loop that has not left within the bound. -/
def readLinesLoop : Nat → List Char → QStringList → Option QStringList
  | 0, _, _ => none
  | fuel + 1, stream, lines =>
    match QTextStream.readLine stream with
    | none => some lines
    | some (line, rest) => readLinesLoop fuel rest (lines ++ [line])

/-- The function `readLines(absoluteFileName)`: the lines of the file, and the empty list
when the file cannot be opened (`none`). Every round of the loop consumes at
least one character, so `length + 1` rounds suffice (`readLinesLoop_total`). -/
def readLines (file : Option (List Char)) : QStringList :=
  match file with
  | none => []
  | some content => (readLinesLoop (content.length + 1) content []).getD []

/-! ## Placeholder expansion -/

/-- The longest prefix of the text that is followed by a closing parenthesis,
if the text has a closing parenthesis at all. -/
def greedyCapture : QString → Option QString
  | [] => none
  | c :: cs =>
    match greedyCapture cs with
    | some p => some (c :: p)
    | none => if c = ')' then some [] else none

/-- A match of the pattern `\$\$\((.+)\)` that starts at the head of the
text: the captured text `cap(1)` and the matched length. The quantifier is
greedy, so the capture runs up to the last closing parenthesis of the text. -/
def matchAt (s : QString) : Option (QString × Nat) :=
  match s with
  | a :: b :: c :: d :: rest =>
    if a = '$' ∧ b = '$' ∧ c = '(' then
      (greedyCapture rest).map (fun p => (d :: p, p.length + 5))
    else none
  | _ => none

/-- What a successful `QRegExp::indexIn` leaves behind: the position of the
match, `cap(1)` and `matchedLength()`. -/
structure RegExpMatch where
  index : Nat
  cap1 : QString
  matchedLength : Nat
  deriving DecidableEq, Repr

/-- Search for the leftmost match in the text `s`, which starts at position
`pos` of the whole string. -/
def indexInFrom : QString → Nat → Option RegExpMatch
  | [], _ => none
  | c :: cs, pos =>
    match matchAt (c :: cs) with
    | some (cap, len) => some ⟨pos, cap, len⟩
    | none => indexInFrom cs (pos + 1)

/-- The call `candidate.indexIn(str, offset)` for the pattern `\$\$\((.+)\)`; `none` is
the result `-1`. -/
def QRegExp.indexIn (str : QString) (offset : Nat) : Option RegExpMatch :=
  indexInFrom (str.drop offset) offset

/-- The method `QString::replace(position, n, after)`. -/
def QString.replace (s : QString) (position n : Nat) (after : QString) : QString :=
  s.take position ++ after ++ s.drop (position + n)

/-- The method `QProcessEnvironment::value(name)`: the value of the variable, the empty
string when it is not set. -/
def QProcessEnvironment.value (env : QString → Option QString) (name : QString) : QString :=
  (env name).getD []

/-- The `while (index != -1)` loop of `expandEnvironmentVariables`, with a
bound on the number of rounds. The third argument is the outcome of the last
`indexIn`; `none` as a result stands for a loop that has not left within the
bound. -/
def expandLoop (env : QString → Option QString) :
    Nat → QString → Option RegExpMatch → Option QString
  | _, string, none => some string
  | 0, _, some _ => none
  | fuel + 1, string, some m =>
    let value := QProcessEnvironment.value env m.cap1
    let string1 := QString.replace string m.index m.matchedLength value
    let index := m.index + value.length
    expandLoop env fuel string1 (QRegExp.indexIn string1 index)

/-- The function `expandEnvironmentVariables(env, string)`: the string the loop leaves in
`string`. The bound is never reached (`expandLoop_total`). -/
def expandEnvironmentVariables (env : QString → Option QString) (string : QString) : QString :=
  (expandLoop env (string.length + 1) string (QRegExp.indexIn string 0)).getD string

/-! ## The project model -/

/-- The test `QChar::isSpace`: the ASCII white space, the next-line and
no-break-space characters and the Unicode separators. -/
def QChar.isSpace (c : Char) : Bool :=
  let u := c.toNat
  u == 0x20 || (0x09 ≤ u && u ≤ 0x0d) || u == 0x85 || u == 0xa0 || u == 0x1680
    || (0x2000 ≤ u && u ≤ 0x200a) || u == 0x2028 || u == 0x2029 || u == 0x202f
    || u == 0x205f || u == 0x3000

/-- The method `QString::trimmed`: the string without the white space at its
start and at its end. -/
def QString.trimmed (s : QString) : QString :=
  ((s.dropWhile QChar.isSpace).reverse.dropWhile QChar.isSpace).reverse

/-- A `QHash<QString, QString>`, as its lookup function. -/
abbrev QHash := QString → Option QString

/-- The empty hash (also the state after `clear()`). -/
def QHash.empty : QHash := fun _ => none

/-- The method `QHash::insert(key, value)`: a later value for the same key
replaces the earlier one. -/
def QHash.insert (h : QHash) (key value : QString) : QHash :=
  fun k => if k = key then some value else h k

/-- The Qt services and the outer world the project consults. All paths are
seen from the fixed project directory `projectDirectory()`. -/
structure Host where
  /-- The call `QDir(projectDirectory).relativeFilePath(path)`. -/
  relativeFilePath : QString → QString
  /-- The call `QFileInfo(projectDir, path).absoluteFilePath()`. -/
  absoluteFilePath : QString → QString
  /-- The call `QFileInfo(filePath).absolutePath()`: the containing directory. -/
  absolutePath : QString → QString
  /-- Whether a file with this absolute path is on disk (`QFileInfo::exists`). -/
  fileExists : QString → Bool
  /-- The call `Utils::FileName::fromUserInput(path).toString()`. -/
  fromUserInput : QString → QString
  /-- The process environment: the value of a variable, `none` when unset. -/
  env : QString → Option QString
  /-- The order in which `foreach` walks through a `QSet<QString>` whose
  elements were inserted in the order of the argument. -/
  qsetOrder : QStringList → QStringList

/-- The body of the `foreach` loop of `processEntries`: the list
`absolutePaths` and the optional map before and after one raw entry. -/
def processEntry (H : Host) (acc : QStringList × Option QHash) (path : QString) :
    QStringList × Option QHash :=
  let trimmedPath := QString.trimmed path
  if trimmedPath.isEmpty then acc
  else
    let trimmedPath := expandEnvironmentVariables H.env trimmedPath
    let trimmedPath := H.fromUserInput trimmedPath
    if H.fileExists (H.absoluteFilePath trimmedPath) then
      let absPath := H.absoluteFilePath trimmedPath
      (acc.1 ++ [absPath], acc.2.map (fun m => QHash.insert m absPath trimmedPath))
    else acc

/-- The method `GenericProject::processEntries(paths, map)`: the returned list
and the map as the call leaves it (`none` when no map is passed). -/
def processEntries (H : Host) (paths : QStringList) (map : Option QHash) :
    QStringList × Option QHash :=
  let r := paths.foldl (processEntry H) ([], map)
  (QStringList.removeDuplicates r.1, r.2)

/-- The members of `GenericProject` that hold the lists. -/
structure GenericProject where
  m_rawFileList : QStringList
  m_files : QStringList
  m_rawListEntries : QHash
  m_rawProjectIncludePaths : QStringList
  m_projectIncludePaths : QStringList

/-- The two list files on disk: their text, `none` for a file that cannot be
opened. -/
structure Disk where
  filesFile : Option (List Char)
  includesFile : Option (List Char)

/-- Modelled from the spec: the flags `GenericProject::RefreshOptions` are
declared in `genericproject.h`, which is not among the sources at hand. The
scopes are `Files`, `Configuration` and `Everything`, the last one being both. -/
inductive RefreshOptions where
  | Files
  | Configuration
  | Everything
  deriving DecidableEq, Repr

/-- The test `options & Files`. -/
def RefreshOptions.hasFiles : RefreshOptions → Bool
  | .Files => true
  | .Configuration => false
  | .Everything => true

/-- The test `options & Configuration`. -/
def RefreshOptions.hasConfiguration : RefreshOptions → Bool
  | .Files => false
  | .Configuration => true
  | .Everything => true

/-- The method `GenericProject::parseProject(options)`. -/
def parseProject (H : Host) (options : RefreshOptions) (disk : Disk) (p : GenericProject) :
    GenericProject :=
  let p1 :=
    if options.hasFiles then
      let rawFileList := readLines disk.filesFile
      let r := processEntries H rawFileList (some QHash.empty)
      { p with m_rawFileList := rawFileList, m_files := r.1,
               m_rawListEntries := r.2.getD QHash.empty }
    else p
  if options.hasConfiguration then
    let rawIncludes := readLines disk.includesFile
    { p1 with m_rawProjectIncludePaths := rawIncludes,
              m_projectIncludePaths := (processEntries H rawIncludes none).1 }
  else p1

/-- The set `toAdd` that `addFiles` collects, as the list of its elements in
the order of their insertion. -/
def addFiles.toAdd (H : Host) (p : GenericProject) (filePaths : QStringList) : QStringList :=
  filePaths.foldl
    (fun toAdd filePath =>
      let directory := H.absolutePath filePath
      if ¬ directory ∈ p.m_projectIncludePaths ∧ ¬ directory ∈ toAdd then toAdd ++ [directory]
      else toAdd)
    []

/-- The entry `addFiles` appends to the raw include list for a directory. -/
def addFiles.relative (H : Host) (path : QString) : QString :=
  if (H.relativeFilePath path).isEmpty then ['.'] else H.relativeFilePath path

/-- The method `GenericProject::addFiles(filePaths)`, up to the two calls of
`saveRawList`: the list `newList` that goes to the files file and the member
`m_rawProjectIncludePaths` that goes to the includes file. -/
def addFiles (H : Host) (p : GenericProject) (filePaths : QStringList) :
    QStringList × QStringList :=
  let newList := filePaths.foldl
    (fun newList filePath => insertSorted newList (H.relativeFilePath filePath)) p.m_rawFileList
  let rawIncludes := (H.qsetOrder (addFiles.toAdd H p filePaths)).foldl
    (fun l path => l ++ [addFiles.relative H path]) p.m_rawProjectIncludePaths
  (newList, rawIncludes)

/-- The method `GenericProject::removeFiles(filePaths)`: the list handed to
`saveRawFileList`. -/
def removeFiles (p : GenericProject) (filePaths : QStringList) : QStringList :=
  filePaths.foldl
    (fun newList filePath =>
      match p.m_rawListEntries filePath with
      | some value => QList.removeOne newList value
      | none => newList)
    p.m_rawFileList

/-- The method `GenericProject::setFiles(filePaths)`: the list handed to
`saveRawFileList`. -/
def setFiles (H : Host) (_p : GenericProject) (filePaths : QStringList) : QStringList :=
  Utils.sort (filePaths.foldl (fun newList filePath => newList ++ [H.relativeFilePath filePath]) [])

/-- The method `GenericProject::renameFile(filePath, newFilePath)`: the list
handed to `saveRawFileList`. -/
def renameFile (H : Host) (p : GenericProject) (filePath newFilePath : QString) : QStringList :=
  match p.m_rawListEntries filePath with
  | some value =>
    if QList.indexOf p.m_rawFileList value ≠ -1 then
      insertSorted (QList.removeAt p.m_rawFileList (QList.indexOf p.m_rawFileList value))
        (H.relativeFilePath newFilePath)
    else p.m_rawFileList
  | none => p.m_rawFileList

/-- A call of `saveRawList` on one of the files: with success the file holds
the text of the list, without it the file is as before. -/
def writeFile (ok : Bool) (rawList : QStringList) (old : Option (List Char)) :
    Option (List Char) :=
  if ok then some (saveRawList rawList) else old

/-- The method `GenericProject::saveRawFileList(rawFileList)`: save the list,
then `refresh(Files)`. -/
def saveRawFileList (H : Host) (ok : Bool) (disk : Disk) (p : GenericProject)
    (rawFileList : QStringList) : Disk × GenericProject :=
  let disk1 := { disk with filesFile := writeFile ok rawFileList disk.filesFile }
  (disk1, parseProject H .Files disk1 p)

/-- The whole of `GenericProject::addFiles(filePaths)`: both lists are saved
(with the two outcomes `okFiles` and `okIncludes`), then `refresh(Everything)`
reads them again. -/
def addFilesAndRefresh (H : Host) (okFiles okIncludes : Bool) (disk : Disk) (p : GenericProject)
    (filePaths : QStringList) : Disk × GenericProject :=
  let r := addFiles H p filePaths
  let disk1 : Disk :=
    { filesFile := writeFile okFiles r.1 disk.filesFile,
      includesFile := writeFile okIncludes r.2 disk.includesFile }
  (disk1, parseProject H .Everything disk1 { p with m_rawProjectIncludePaths := r.2 })

/-- A host for the worked examples: the project directory is `/proj`, the
files on disk are those of the list `onDisk`, `fromUserInput` changes nothing
and a `QSet` is walked through in the order of insertion. -/
def demoHost (onDisk : QStringList) (env : QString → Option QString) : Host where
  relativeFilePath := fun path =>
    if "/proj/".toList.isPrefixOf path then path.drop 6
    else if path = "/proj".toList then [] else path
  absoluteFilePath := fun path =>
    if "/".toList.isPrefixOf path then path else "/proj/".toList ++ path
  absolutePath := fun filePath =>
    ((filePath.reverse.dropWhile (fun c => decide (c ≠ '/'))).drop 1).reverse
  fileExists := fun path => decide (path ∈ onDisk)
  fromUserInput := fun path => path
  env := env
  qsetOrder := fun l => l

/-- A project with nothing loaded. -/
def emptyProject : GenericProject where
  m_rawFileList := []
  m_files := []
  m_rawListEntries := QHash.empty
  m_rawProjectIncludePaths := []
  m_projectIncludePaths := []

/-- The project of the example scenario of the specification: the files
file holds the lines of `rawLines`, the files of `onDisk` exist, and the
project has been loaded with `refresh(Everything)`. -/
def loadedProject (onDisk rawLines : QStringList) (env : QString → Option QString) :
    GenericProject :=
  parseProject (demoHost onDisk env) .Everything
    { filesFile := some (saveRawList rawLines), includesFile := none } emptyProject

/-- The line `x` is among the lines read from the text, whatever has been
read before and whatever the bound, as long as it exceeds the length of the
text. -/
def ReadsLine (stream : List Char) (x : QString) : Prop :=
  ∀ (fuel : Nat) (lines : QStringList), stream.length < fuel →
    ∃ r, readLinesLoop fuel stream lines = some r ∧ x ∈ r

/-- The directories `addFiles` has to add, in order of discovery, in the
words of the specification: the containing directories of the input paths,
in the order of the paths, without those that are include paths already and
with only the first occurrence of each. -/
def discoveryOrder (H : Host) (p : GenericProject) (filePaths : QStringList) : QStringList :=
  QStringList.removeDuplicates
    ((filePaths.map H.absolutePath).filter (fun d => decide (d ∉ p.m_projectIncludePaths)))

/-- A host like `demoHost`, except that a `QSet` is walked through in the
reverse of the order of insertion. A `QSet` is a hash table, walked through
bucket by bucket; which element comes first depends on the hash values, not
on the order of insertion. -/
def bucketHost (onDisk : QStringList) (env : QString → Option QString) : Host :=
  { demoHost onDisk env with qsetOrder := fun l => l.reverse }

end GenericProjectManager

/-! # The tool tip of the text editor

A shallow embedding of `ToolTip::placeTip` and `ToolTip::setTipRect` of
`src/plugins/texteditor/tooltip/tooltip.cpp`. Coordinates are exact integers.
-/

namespace TextEditor

/-- A `QPoint`. -/
structure QPoint where
  x : Int
  y : Int
  deriving DecidableEq, Repr

/-- A `QRect`, given by its left edge `x()`, its top edge `y()`, its
`width()` and its `height()`. -/
structure QRect where
  x : Int
  y : Int
  width : Int
  height : Int
  deriving DecidableEq, Repr

/-- The method `QRect::isNull`: width and height are both 0. The rectangle
`QRect()` is null. -/
def QRect.isNull (r : QRect) : Bool :=
  r.width == 0 && r.height == 0

/-- The method `ToolTip::placeTip(pos, w)`: the point the tip is moved to.
The screen is the result of `Internal::screenGeometry(pos, w)` (declared in
`reuse.h`, not among the sources at hand), `tipWidth` and `tipHeight` are
`m_tip->width()` and `m_tip->height()`, and `win` tells whether `Q_WS_WIN` is
defined. -/
def placeTip (win : Bool) (screen : QRect) (tipWidth tipHeight : Int) (pos : QPoint) : QPoint :=
  let p : QPoint := { x := pos.x + 2, y := pos.y + (if win then 21 else 16) }
  let p : QPoint :=
    if p.x + tipWidth > screen.x + screen.width then { p with x := p.x - (4 + tipWidth) } else p
  let p : QPoint :=
    if p.y + tipHeight > screen.y + screen.height then { p with y := p.y - (24 + tipHeight) }
    else p
  let p : QPoint := if p.y < screen.y then { p with y := screen.y } else p
  let p : QPoint :=
    if p.x + tipWidth > screen.x + screen.width then
      { p with x := screen.x + screen.width - tipWidth }
    else p
  let p : QPoint := if p.x < screen.x then { p with x := screen.x } else p
  let p : QPoint :=
    if p.y + tipHeight > screen.y + screen.height then
      { p with y := screen.y + screen.height - tipHeight }
    else p
  p

/-- The members of `ToolTip` that `setTipRect` reads and writes. A widget
pointer is `none` when it is null, and `some` of an identifier otherwise. -/
structure ToolTip where
  m_widget : Option Nat
  m_rect : QRect
  deriving DecidableEq, Repr

/-- The method `ToolTip::setTipRect(w, rect)`: the members after the call,
and whether the warning "Cannot pass null widget if rect is set" was
issued. -/
def setTipRect (t : ToolTip) (w : Option Nat) (rect : QRect) : ToolTip × Bool :=
  if ¬ t.m_rect.isNull ∧ w.isNone then (t, true)
  else ({ t with m_widget := w, m_rect := rect }, false)

/-- The tool tip as its constructor leaves it: no widget, the null
rectangle. -/
def ToolTip.initial : ToolTip where
  m_widget := none
  m_rect := { x := 0, y := 0, width := 0, height := 0 }

end TextEditor

namespace GenericProjectManager

/-! ## Sorted insertion -/

theorem indexOf_eq_neg_one (l : QStringList) (f : QString → Bool)
    (h : ∀ s ∈ l, f s = false) : Utils.indexOf l f = -1 := by
  have hlen : List.findIdx f l = l.length := by
    rw [List.findIdx_eq_length]
    intro x hx
    simp [h x hx]
  simp [Utils.indexOf, hlen]

/-- When no element of the list is greater than the value, `insertSorted`
puts the value in front of the list. -/
theorem insertSorted_no_greater (l : QStringList) (v : QString)
    (h : ∀ s ∈ l, ¬ s > v) : insertSorted l v = v :: l := by
  unfold insertSorted
  rw [indexOf_eq_neg_one l _ (by intro s hs; simpa using h s hs)]
  simp [QList.insert]

theorem QList_insert_inside (l : QStringList) (i : Nat) (v : QString) (hi : i < l.length) :
    QList.insert l (i : Int) v = l.take i ++ v :: l.drop i := by
  unfold QList.insert
  by_cases h0 : (i : Int) ≤ 0
  · have : i = 0 := by omega
    subst this
    simp
  · rw [if_neg h0, if_neg (by omega)]
    simp

theorem indexOf_of_exists (l : QStringList) (f : QString → Bool) (h : ∃ s ∈ l, f s = true) :
    Utils.indexOf l f = (List.findIdx f l : Int) ∧ List.findIdx f l < l.length := by
  have hlt : List.findIdx f l < l.length := by
    obtain ⟨s, hs, hf⟩ := h
    exact List.findIdx_lt_length_of_exists ⟨s, hs, hf⟩
  exact ⟨by simp [Utils.indexOf, hlt], hlt⟩

theorem insertSorted_of_exists (l : QStringList) (v : QString) (h : ∃ s ∈ l, s > v) :
    insertSorted l v
      = l.take (List.findIdx (fun s => decide (s > v)) l)
        ++ v :: l.drop (List.findIdx (fun s => decide (s > v)) l) := by
  obtain ⟨h1, h2⟩ := indexOf_of_exists l (fun s => decide (s > v))
    (by obtain ⟨s, hs, hv⟩ := h; exact ⟨s, hs, by simpa using hv⟩)
  unfold insertSorted
  rw [h1, QList_insert_inside l _ v h2]

/-- When some element of a sorted list is greater than the value,
`insertSorted` keeps the list sorted: the defect is confined to the case in
which `Utils::indexOf` finds nothing. -/
theorem insertSorted_sorted_of_greater (l : QStringList) (v : QString)
    (hs : List.Sorted (· ≤ ·) l) (hg : ∃ s ∈ l, s > v) :
    List.Sorted (· ≤ ·) (insertSorted l v) := by
  rw [insertSorted_of_exists l v hg]
  induction l with
  | nil => obtain ⟨s, hs1, _⟩ := hg; cases hs1
  | cons a t ih =>
    have hsa := List.sorted_cons.mp hs
    by_cases ha : a > v
    · have hidx : List.findIdx (fun s => decide (s > v)) (a :: t) = 0 := by
        simp [List.findIdx_cons, ha]
      rw [hidx]
      simp only [List.take_zero, List.nil_append, List.drop_zero]
      refine List.sorted_cons.mpr ⟨?_, hs⟩
      intro b hb
      rcases List.mem_cons.mp hb with hb | hb
      · rw [hb]; exact le_of_lt ha
      · exact le_trans (le_of_lt ha) (hsa.1 b hb)
    · have hidx : List.findIdx (fun s => decide (s > v)) (a :: t)
          = List.findIdx (fun s => decide (s > v)) t + 1 := by
        simp [List.findIdx_cons, ha]
      have hg1 : ∃ s ∈ t, s > v := by
        obtain ⟨s, hs1, hs2⟩ := hg
        rcases List.mem_cons.mp hs1 with hs1 | hs1
        · exact absurd (hs1 ▸ hs2) ha
        · exact ⟨s, hs1, hs2⟩
      rw [hidx]
      simp only [List.take_succ_cons, List.drop_succ_cons, List.cons_append]
      refine List.sorted_cons.mpr ⟨?_, ih hsa.2 hg1⟩
      intro b hb
      rcases List.mem_append.mp hb with hb | hb
      · exact hsa.1 b (List.mem_of_mem_take hb)
      · rcases List.mem_cons.mp hb with hb | hb
        · rw [hb]; exact not_lt.mp ha
        · exact hsa.1 b (List.mem_of_mem_drop hb)

/-- C1, at the failing input: the raw list `["a.cpp"]` is sorted, and
`insertSorted` with `"b.cpp"` (no element is greater, `Utils::indexOf` gives
`-1`, `QList::insert` prepends) makes it `["b.cpp", "a.cpp"]`, which is not
sorted. So `addFiles` with `/proj/a.cpp` and `/proj/b.cpp` on an empty project
persists an unsorted list, and so does `renameFile` of `/proj/a.cpp` to
`/proj/c.cpp` on the loaded raw list `["a.cpp", "b.cpp"]`. -/
theorem insertSorted_breaks_order :
    List.Sorted (· ≤ ·) (["a.cpp".toList] : QStringList) ∧
    Utils.indexOf ["a.cpp".toList] (fun s => decide (s > "b.cpp".toList)) = -1 ∧
    insertSorted ["a.cpp".toList] "b.cpp".toList = ["b.cpp".toList, "a.cpp".toList] ∧
    ¬ List.Sorted (· ≤ ·) (insertSorted ["a.cpp".toList] "b.cpp".toList) ∧
    (addFiles (demoHost [] (fun _ => none)) emptyProject
        ["/proj/a.cpp".toList, "/proj/b.cpp".toList]).1
      = ["b.cpp".toList, "a.cpp".toList] ∧
    List.Sorted (· ≤ ·)
      (loadedProject ["/proj/a.cpp".toList, "/proj/b.cpp".toList]
        ["a.cpp".toList, "b.cpp".toList] (fun _ => none)).m_rawFileList ∧
    renameFile (demoHost ["/proj/a.cpp".toList, "/proj/b.cpp".toList] (fun _ => none))
        (loadedProject ["/proj/a.cpp".toList, "/proj/b.cpp".toList]
          ["a.cpp".toList, "b.cpp".toList] (fun _ => none))
        "/proj/a.cpp".toList "/proj/c.cpp".toList
      = ["c.cpp".toList, "b.cpp".toList] := by
  refine ⟨by decide, by decide, by decide, by decide, by decide, by decide, by decide⟩

/-! ## Placeholder expansion: one placeholder -/

theorem greedyCapture_none (s : QString) (h : ')' ∉ s) : greedyCapture s = none := by
  induction s with
  | nil => rfl
  | cons c cs ih =>
    simp only [List.mem_cons, not_or] at h
    have hc : c ≠ ')' := fun e => h.1 e.symm
    simp [greedyCapture, ih h.2, hc]

theorem greedyCapture_last (name suf : QString) (hs : ')' ∉ suf) :
    greedyCapture (name ++ ')' :: suf) = some name := by
  induction name with
  | nil => simp [greedyCapture, greedyCapture_none suf hs]
  | cons c cs ih => simp [greedyCapture, ih]

theorem matchAt_head_ne (c : Char) (cs : QString) (hc : c ≠ '$') : matchAt (c :: cs) = none := by
  unfold matchAt
  split
  · rename_i a b c1 d rest heq
    simp only [List.cons.injEq] at heq
    have : a ≠ '$' := heq.1 ▸ hc
    simp [this]
  · rfl

theorem indexInFrom_skip (pre rest : QString) (pos : Nat) (h : '$' ∉ pre) :
    indexInFrom (pre ++ rest) pos = indexInFrom rest (pos + pre.length) := by
  induction pre generalizing pos with
  | nil => simp
  | cons c cs ih =>
    simp only [List.mem_cons, not_or] at h
    have hc : c ≠ '$' := fun e => h.1 e.symm
    have hstep : indexInFrom (c :: (cs ++ rest)) pos = indexInFrom (cs ++ rest) (pos + 1) := by
      simp only [indexInFrom, matchAt_head_ne c _ hc]
    rw [List.cons_append, hstep, ih (pos + 1) h.2, List.length_cons]
    congr 1
    omega

theorem indexInFrom_none (s : QString) (pos : Nat) (h : '$' ∉ s) : indexInFrom s pos = none := by
  have := indexInFrom_skip s [] pos h
  simpa [indexInFrom] using this

/-- C2: a string with one placeholder `$$(NAME)`, where `NAME` is not empty
and has no parenthesis and the text before and after has none of `$`, `(`,
`)`, is expanded to the text before, the value of `NAME` in the environment
(empty when unset) and the text after; the loop leaves within its bound. -/
theorem expandEnvironmentVariables_single (env : QString → Option QString)
    (pre name suf : QString) (hname : name ≠ [])
    (hopen : '(' ∉ name) (hclose : ')' ∉ name)
    (hpre : '$' ∉ pre ∧ '(' ∉ pre ∧ ')' ∉ pre)
    (hsuf : '$' ∉ suf ∧ '(' ∉ suf ∧ ')' ∉ suf) :
    expandLoop env ((pre ++ "$$(".toList ++ name ++ ")".toList ++ suf).length + 1)
        (pre ++ "$$(".toList ++ name ++ ")".toList ++ suf)
        (QRegExp.indexIn (pre ++ "$$(".toList ++ name ++ ")".toList ++ suf) 0)
      = some (pre ++ QProcessEnvironment.value env name ++ suf) ∧
    expandEnvironmentVariables env (pre ++ "$$(".toList ++ name ++ ")".toList ++ suf)
      = pre ++ QProcessEnvironment.value env name ++ suf := by
  obtain ⟨d, name1, rfl⟩ := List.exists_cons_of_ne_nil hname
  have hclose1 : ')' ∉ name1 := fun h => hclose (List.mem_cons_of_mem _ h)
  have hstr : pre ++ "$$(".toList ++ (d :: name1) ++ ")".toList ++ suf
      = pre ++ ('$' :: '$' :: '(' :: d :: (name1 ++ ')' :: suf)) := by simp
  have hmatch : matchAt ('$' :: '$' :: '(' :: d :: (name1 ++ ')' :: suf))
      = some (d :: name1, name1.length + 5) := by
    simp [matchAt, greedyCapture_last name1 suf hsuf.2.2]
  have hidx : QRegExp.indexIn (pre ++ ('$' :: '$' :: '(' :: d :: (name1 ++ ')' :: suf))) 0
      = some ⟨pre.length, d :: name1, name1.length + 5⟩ := by
    simp only [QRegExp.indexIn, List.drop_zero]
    rw [indexInFrom_skip pre _ 0 hpre.1]
    simp [indexInFrom, hmatch]
  have hrep : QString.replace (pre ++ ('$' :: '$' :: '(' :: d :: (name1 ++ ')' :: suf)))
      pre.length (name1.length + 5) (QProcessEnvironment.value env (d :: name1))
      = pre ++ QProcessEnvironment.value env (d :: name1) ++ suf := by
    simp only [QString.replace, List.take_left, List.append_assoc, List.append_cancel_left_eq]
    rw [List.drop_append]
    have : '$' :: '$' :: '(' :: d :: (name1 ++ ')' :: suf)
        = ('$' :: '$' :: '(' :: d :: (name1 ++ [')'])) ++ suf := by simp
    rw [this]
    have hl : name1.length + 5 = ('$' :: '$' :: '(' :: d :: (name1 ++ [')'])).length := by simp
    rw [hl, List.drop_left]
  have hnext : QRegExp.indexIn (pre ++ QProcessEnvironment.value env (d :: name1) ++ suf)
      (pre.length + (QProcessEnvironment.value env (d :: name1)).length) = none := by
    simp only [QRegExp.indexIn]
    have hl : pre.length + (QProcessEnvironment.value env (d :: name1)).length
        = (pre ++ QProcessEnvironment.value env (d :: name1)).length := by simp
    rw [hl, List.drop_left]
    exact indexInFrom_none suf _ hsuf.1
  have hloop : ∀ n, expandLoop env (n + 1)
      (pre ++ ('$' :: '$' :: '(' :: d :: (name1 ++ ')' :: suf)))
      (QRegExp.indexIn (pre ++ ('$' :: '$' :: '(' :: d :: (name1 ++ ')' :: suf))) 0)
      = some (pre ++ QProcessEnvironment.value env (d :: name1) ++ suf) := by
    intro n
    rw [hidx]
    simp only [expandLoop]
    rw [hrep, hnext]
    cases n <;> rfl
  rw [hstr]
  refine ⟨hloop _, ?_⟩
  unfold expandEnvironmentVariables
  rw [hloop]
  rfl

/-- C2, the example of the specification: with `FOO=bar` the string
`$$(FOO)/src` becomes `bar/src`, and with `FOO` unset it becomes `/src`. -/
theorem expandEnvironmentVariables_single_witness :
    expandEnvironmentVariables (fun n => if n = "FOO".toList then some "bar".toList else none)
        "$$(FOO)/src".toList = "bar/src".toList ∧
    expandEnvironmentVariables (fun _ => none) "$$(FOO)/src".toList = "/src".toList :=
  ⟨(expandEnvironmentVariables_single
      (fun n => if n = "FOO".toList then some "bar".toList else none)
      [] "FOO".toList "/src".toList (by decide) (by decide) (by decide)
      (by decide) (by decide)).2,
   (expandEnvironmentVariables_single (fun _ => none)
      [] "FOO".toList "/src".toList (by decide) (by decide) (by decide)
      (by decide) (by decide)).2⟩

/-! ## Placeholder expansion: the loop leaves after one round -/

theorem greedyCapture_eq_none (s : QString) (h : greedyCapture s = none) : ')' ∉ s := by
  induction s with
  | nil => simp
  | cons c cs ih =>
    simp only [greedyCapture] at h
    cases hcs : greedyCapture cs with
    | some p => simp [hcs] at h
    | none =>
      simp only [hcs] at h
      have hc : c ≠ ')' := by
        intro e
        simp [e] at h
      simp only [List.mem_cons, not_or]
      exact ⟨fun e => hc e.symm, ih hcs⟩

theorem greedyCapture_some (s : QString) :
    ∀ p, greedyCapture s = some p → ∃ suf, s = p ++ ')' :: suf ∧ ')' ∉ suf := by
  induction s with
  | nil => intro p h; simp [greedyCapture] at h
  | cons c cs ih =>
    intro p h
    simp only [greedyCapture] at h
    cases hcs : greedyCapture cs with
    | some p1 =>
      simp only [hcs, Option.some.injEq] at h
      obtain ⟨suf, hs1, hs2⟩ := ih p1 hcs
      exact ⟨suf, by rw [← h, hs1]; rfl, hs2⟩
    | none =>
      simp only [hcs] at h
      by_cases hc : c = ')'
      · simp only [hc, if_true, Option.some.injEq] at h
        exact ⟨cs, by rw [← h, hc]; rfl, greedyCapture_eq_none cs hcs⟩
      · simp [hc] at h

theorem matchAt_some (s cap : QString) (len : Nat) (h : matchAt s = some (cap, len)) :
    ∃ suf, s = '$' :: '$' :: '(' :: (cap ++ ')' :: suf) ∧ ')' ∉ suf ∧ len = cap.length + 4 := by
  unfold matchAt at h
  split at h
  · rename_i a b c d rest
    split at h
    · rename_i habc
      cases hg : greedyCapture rest with
      | none => simp [hg] at h
      | some p =>
        simp only [hg, Option.map_some', Option.some.injEq, Prod.mk.injEq] at h
        obtain ⟨suf, hs1, hs2⟩ := greedyCapture_some rest p hg
        refine ⟨suf, ?_, hs2, ?_⟩
        · rw [habc.1, habc.2.1, habc.2.2, ← h.1, hs1]; rfl
        · rw [← h.2, ← h.1]; simp
    · cases h
  · cases h

theorem matchAt_no_close (s : QString) (h : ')' ∉ s) : matchAt s = none := by
  cases hm : matchAt s with
  | none => rfl
  | some r =>
    obtain ⟨cap, len⟩ := r
    obtain ⟨suf, hs, _, _⟩ := matchAt_some s cap len hm
    exact absurd (by rw [hs]; simp) h

theorem indexInFrom_no_close (s : QString) :
    ∀ pos, ')' ∉ s → indexInFrom s pos = none := by
  induction s with
  | nil => intro pos _; rfl
  | cons c cs ih =>
    intro pos h
    simp only [indexInFrom, matchAt_no_close _ h]
    exact ih _ (fun hc => h (List.mem_cons_of_mem _ hc))

/-- A match found by the search: the text is some `pre`, the placeholder
opening, the captured text, a closing parenthesis and a rest without any
closing parenthesis. -/
theorem indexInFrom_some (s : QString) :
    ∀ (pos : Nat) (m : RegExpMatch), indexInFrom s pos = some m →
      ∃ pre suf, s = pre ++ '$' :: '$' :: '(' :: (m.cap1 ++ ')' :: suf) ∧ ')' ∉ suf ∧
        m.index = pos + pre.length ∧ m.matchedLength = m.cap1.length + 4 := by
  induction s with
  | nil => intro pos m h; simp [indexInFrom] at h
  | cons c cs ih =>
    intro pos m h
    simp only [indexInFrom] at h
    cases hm : matchAt (c :: cs) with
    | some r =>
      obtain ⟨cap, len⟩ := r
      simp only [hm, Option.some.injEq] at h
      obtain ⟨suf, hs1, hs2, hs3⟩ := matchAt_some _ cap len hm
      refine ⟨[], suf, ?_, hs2, ?_, ?_⟩
      · rw [← h]; simpa using hs1
      · rw [← h]; simp
      · rw [← h]; exact hs3
    | none =>
      simp only [hm] at h
      obtain ⟨pre, suf, hs1, hs2, hs3, hs4⟩ := ih (pos + 1) m h
      refine ⟨c :: pre, suf, by rw [hs1]; rfl, hs2, ?_, hs4⟩
      rw [hs3, List.length_cons]; omega

/-- One round of the loop of `expandEnvironmentVariables` ends it: after the
first replacement the search finds nothing, since the greedy capture has
taken the last closing parenthesis of the string. -/
theorem expandLoop_one_round (env : QString → Option QString) (string : QString)
    (m : RegExpMatch) (h : QRegExp.indexIn string 0 = some m) (fuel : Nat) :
    expandLoop env (fuel + 1) string (some m)
      = some (QString.replace string m.index m.matchedLength
          (QProcessEnvironment.value env m.cap1)) := by
  obtain ⟨pre, suf, hs1, hs2, hs3, hs4⟩ := indexInFrom_some string 0 m
    (by simpa [QRegExp.indexIn] using h)
  have hrep : QString.replace string m.index m.matchedLength
      (QProcessEnvironment.value env m.cap1)
      = pre ++ QProcessEnvironment.value env m.cap1 ++ suf := by
    have hidx : m.index = pre.length := by omega
    rw [hs1, hidx, hs4]
    simp only [QString.replace, List.take_left, List.append_assoc, List.append_cancel_left_eq]
    rw [List.drop_append]
    have hsplit : '$' :: '$' :: '(' :: (m.cap1 ++ ')' :: suf)
        = ('$' :: '$' :: '(' :: (m.cap1 ++ [')'])) ++ suf := by simp
    have hl : m.cap1.length + 4 = ('$' :: '$' :: '(' :: (m.cap1 ++ [')'])).length := by simp
    rw [hsplit, hl, List.drop_left]
  have hnext : QRegExp.indexIn (pre ++ QProcessEnvironment.value env m.cap1 ++ suf)
      (m.index + (QProcessEnvironment.value env m.cap1).length) = none := by
    have hl : m.index + (QProcessEnvironment.value env m.cap1).length
        = (pre ++ QProcessEnvironment.value env m.cap1).length := by
      simp only [List.length_append]; omega
    simp only [QRegExp.indexIn]
    rw [hl, List.drop_left]
    exact indexInFrom_no_close suf _ hs2
  simp only [expandLoop]
  rw [hrep, hnext]
  cases fuel <;> rfl

/-- The loop of `expandEnvironmentVariables` leaves within its bound, for
every string and every environment. -/
theorem expandLoop_total (env : QString → Option QString) (string : QString) :
    expandLoop env (string.length + 1) string (QRegExp.indexIn string 0)
      = some (expandEnvironmentVariables env string) := by
  unfold expandEnvironmentVariables
  cases h : QRegExp.indexIn string 0 with
  | none => simp [expandLoop]
  | some m => rw [expandLoop_one_round env string m h]; rfl

/-! ## Placeholder expansion: two placeholders -/

/-- C3, at the failing input: in `$$(A)/$$(B)` the greedy pattern matches the
whole line at position 0 with `cap(1)` being `A)/$$(B`, so with `A=x` and
`B=y` the line expands to the value of the unset variable `A)/$$(B`, the empty
string, and not to `x/y`. -/
theorem expandEnvironmentVariables_two_placeholders :
    QRegExp.indexIn "$$(A)/$$(B)".toList 0 = some ⟨0, "A)/$$(B".toList, 11⟩ ∧
    expandEnvironmentVariables
        (fun n => if n = "A".toList then some "x".toList
                  else if n = "B".toList then some "y".toList else none)
        "$$(A)/$$(B)".toList = [] ∧
    expandEnvironmentVariables
        (fun n => if n = "A".toList then some "x".toList
                  else if n = "B".toList then some "y".toList else none)
        "$$(A)/$$(B)".toList ≠ "x/y".toList := by
  refine ⟨by decide, by decide, by decide⟩

/-! ## Round trip of the raw list store -/

theorem takeWhile_notLF (l rest : List Char) (h : '\n' ∉ l) :
    (l ++ '\n' :: rest).takeWhile (fun c => decide (c ≠ '\n')) = l := by
  induction l with
  | nil => simp
  | cons c cs ih =>
    simp only [List.mem_cons, not_or] at h
    have hc : c ≠ '\n' := fun e => h.1 e.symm
    have ih1 := ih h.2
    simp only [List.cons_append, List.takeWhile, decide_not, hc, decide_False, Bool.not_false] at ih1 ⊢
    exact congrArg (List.cons c) ih1

theorem dropWhile_notLF (l rest : List Char) (h : '\n' ∉ l) :
    (l ++ '\n' :: rest).dropWhile (fun c => decide (c ≠ '\n')) = '\n' :: rest := by
  induction l with
  | nil => simp
  | cons c cs ih =>
    simp only [List.mem_cons, not_or] at h
    have hc : c ≠ '\n' := fun e => h.1 e.symm
    have ih1 := ih h.2
    simp only [List.cons_append, List.dropWhile, decide_not, hc, decide_False, Bool.not_false] at ih1 ⊢
    exact ih1

/-- One call of `readLine` on a text that starts with a line `l` and its line
feed. -/
theorem readLine_line (l rest : List Char) (h : '\n' ∉ l) :
    QTextStream.readLine (l ++ '\n' :: rest)
      = some (if l.getLast? = some '\r' then l.dropLast else l, rest) := by
  unfold QTextStream.readLine
  rw [if_neg (by simp)]
  simp only [takeWhile_notLF l rest h, dropWhile_notLF l rest h, List.drop_succ_cons,
    List.drop_zero]

theorem saveRawList_cons (e : QString) (es : QStringList) :
    saveRawList (e :: es) = e ++ '\n' :: saveRawList es := by
  simp [saveRawList]

theorem saveRawList_length (es : QStringList) : es.length ≤ (saveRawList es).length := by
  induction es with
  | nil => simp
  | cons e es ih =>
    rw [saveRawList_cons]
    simp only [List.length_append, List.length_cons]
    omega

theorem readLinesLoop_saveRawList (entries : QStringList)
    (h : ∀ e ∈ entries, '\n' ∉ e ∧ e.getLast? ≠ some '\r') :
    ∀ (fuel : Nat) (lines : QStringList), entries.length < fuel →
      readLinesLoop fuel (saveRawList entries) lines = some (lines ++ entries) := by
  induction entries with
  | nil =>
    intro fuel lines hf
    cases fuel with
    | zero => omega
    | succ n => simp [readLinesLoop, saveRawList, QTextStream.readLine]
  | cons e es ih =>
    intro fuel lines hf
    cases fuel with
    | zero => omega
    | succ n =>
      have he := h e (List.mem_cons_self _ _)
      rw [saveRawList_cons, readLinesLoop, readLine_line e _ he.1, if_neg he.2]
      simp only
      rw [ih (fun x hx => h x (List.mem_cons_of_mem _ hx)) n _
        (by simp only [List.length_cons] at hf; omega)]
      simp

/-- C4 as stated fails: the entry `a` followed by a carriage return is not
empty and has no line feed; `saveRawList` writes it with a line feed after
it, and `readLines` gives back `a`, without the carriage return. -/
theorem roundtrip_carriage_return :
    (∀ e ∈ ([['a', '\r']] : QStringList), e ≠ [] ∧ '\n' ∉ e) ∧
    readLines (some (saveRawList [['a', '\r']])) = [['a']] ∧
    readLines (some (saveRawList [['a', '\r']])) ≠ [['a', '\r']] := by
  refine ⟨by decide, by decide, by decide⟩

/-- C4, amended: for every sequence of strings without a line feed none of
which ends in a carriage return, the text `saveRawList` writes is read back by
`readLines` as exactly that sequence, and the reading loop leaves within its
bound. -/
theorem readLines_saveRawList (entries : QStringList)
    (h : ∀ e ∈ entries, '\n' ∉ e ∧ e.getLast? ≠ some '\r') :
    readLinesLoop ((saveRawList entries).length + 1) (saveRawList entries) [] = some entries ∧
    readLines (some (saveRawList entries)) = entries := by
  have hloop := readLinesLoop_saveRawList entries h ((saveRawList entries).length + 1) []
    (by have := saveRawList_length entries; omega)
  simp only [List.nil_append] at hloop
  exact ⟨hloop, by simp [readLines, hloop]⟩

/-- C4, amended, at a concrete list: `["b.cpp", "a.cpp"]` is read back as
it was written. -/
theorem readLines_saveRawList_witness :
    readLines (some (saveRawList ["b.cpp".toList, "a.cpp".toList]))
      = ["b.cpp".toList, "a.cpp".toList] :=
  (readLines_saveRawList ["b.cpp".toList, "a.cpp".toList] (by decide)).2

/-! ## Removing files -/

/-- The loop of `removeFiles`, started on an arbitrary list. -/
theorem removeFiles_fold_sublist (map : QHash) (filePaths : QStringList) :
    ∀ l : QStringList,
      (filePaths.foldl (fun newList filePath =>
        match map filePath with
        | some value => QList.removeOne newList value
        | none => newList) l).Sublist l := by
  induction filePaths with
  | nil => intro l; exact List.Sublist.refl l
  | cons q qs ih =>
    intro l
    simp only [List.foldl_cons]
    cases hq : map q with
    | none => exact ih l
    | some v => exact (ih _).trans (List.erase_sublist v l)

theorem removeFiles_fold_count (map : QHash) (filePaths : QStringList) (x : QString) :
    ∀ l : QStringList,
      (filePaths.foldl (fun newList filePath =>
        match map filePath with
        | some value => QList.removeOne newList value
        | none => newList) l).count x
      = l.count x - (filePaths.filter (fun q => decide (map q = some x))).length := by
  induction filePaths with
  | nil => intro l; simp
  | cons q qs ih =>
    intro l
    simp only [List.foldl_cons]
    cases hq : map q with
    | none =>
      rw [ih l, List.filter_cons_of_neg (by simp [hq])]
    | some v =>
      simp only
      rw [ih _, QList.removeOne, List.count_erase]
      by_cases hv : v = x
      · subst hv
        rw [List.filter_cons_of_pos (by simp [hq])]
        simp only [beq_self_eq_true, if_true, List.length_cons]
        omega
      · rw [List.filter_cons_of_neg (by simp [hq, hv])]
        simp [hv]

theorem removeFiles_fold_keys (map : QHash) (filePaths : QStringList) :
    ∀ l : QStringList,
      filePaths.foldl (fun newList filePath =>
        match map filePath with
        | some value => QList.removeOne newList value
        | none => newList) l
      = (filePaths.filter (fun q => (map q).isSome)).foldl (fun newList filePath =>
        match map filePath with
        | some value => QList.removeOne newList value
        | none => newList) l := by
  induction filePaths with
  | nil => intro l; rfl
  | cons q qs ih =>
    intro l
    cases hq : map q with
    | none =>
      rw [List.filter_cons_of_neg (by simp [hq])]
      simp only [List.foldl_cons, hq]
      exact ih l
    | some v =>
      rw [List.filter_cons_of_pos (by simp [hq])]
      simp only [List.foldl_cons, hq]
      exact ih _

/-- C5 as stated fails. With the raw list `["a.cpp"]` loaded and
`/proj/a.cpp` on disk, `removeFiles` on the path given twice meets a key of
the mapping twice and removes one entry, not two. With the raw line ` a.cpp`
(a leading blank) loaded, `/proj/a.cpp` is a key of the mapping, and
`removeFiles` removes nothing. -/
theorem removeFiles_not_exactly_one :
    (loadedProject ["/proj/a.cpp".toList] ["a.cpp".toList] (fun _ => none)).m_rawListEntries
        "/proj/a.cpp".toList = some "a.cpp".toList ∧
    removeFiles (loadedProject ["/proj/a.cpp".toList] ["a.cpp".toList] (fun _ => none))
        ["/proj/a.cpp".toList, "/proj/a.cpp".toList] = [] ∧
    (loadedProject ["/proj/a.cpp".toList] [" a.cpp".toList] (fun _ => none)).m_rawListEntries
        "/proj/a.cpp".toList = some "a.cpp".toList ∧
    (loadedProject ["/proj/a.cpp".toList] [" a.cpp".toList] (fun _ => none)).m_rawFileList
      = [" a.cpp".toList] ∧
    removeFiles (loadedProject ["/proj/a.cpp".toList] [" a.cpp".toList] (fun _ => none))
        ["/proj/a.cpp".toList] = [" a.cpp".toList] := by
  refine ⟨by decide, by decide, by decide, by decide, by decide⟩

/-- C5, amended: the list `removeFiles` hands to persistence is a sublist of
the prior raw file list (the survivors keep their order); every string occurs
in it as often as before, less once for every input path mapped to that
string, as long as an occurrence is left; input paths that are no key of the
mapping change nothing; and for one input path whose mapped string occurs in
the list, the first occurrence is the one removed. -/
theorem removeFiles_spec (p : GenericProject) (filePaths : QStringList) :
    (removeFiles p filePaths).Sublist p.m_rawFileList ∧
    (∀ x : QString, (removeFiles p filePaths).count x
      = p.m_rawFileList.count x
        - (filePaths.filter (fun q => decide (p.m_rawListEntries q = some x))).length) ∧
    removeFiles p filePaths
      = removeFiles p (filePaths.filter (fun q => (p.m_rawListEntries q).isSome)) ∧
    (∀ (q v : QString) (l1 l2 : QStringList), p.m_rawListEntries q = some v →
      p.m_rawFileList = l1 ++ v :: l2 → v ∉ l1 → removeFiles p [q] = l1 ++ l2) := by
  refine ⟨removeFiles_fold_sublist _ _ _, fun x => removeFiles_fold_count _ _ x _,
    removeFiles_fold_keys _ _ _, ?_⟩
  intro q v l1 l2 hq hl hv
  simp only [removeFiles, List.foldl_cons, List.foldl_nil, hq, QList.removeOne, hl]
  rw [List.erase_append_right _ hv, List.erase_cons_head]

/-- C5, the example scenario: with the raw list `["b.cpp", "a.cpp"]` loaded
and both files on disk, `removeFiles` on the absolute path of `a.cpp`
persists `["b.cpp"]`, a sublist of the prior list. -/
theorem removeFiles_spec_witness :
    removeFiles (loadedProject ["/proj/a.cpp".toList, "/proj/b.cpp".toList]
        ["b.cpp".toList, "a.cpp".toList] (fun _ => none)) ["/proj/a.cpp".toList]
      = ["b.cpp".toList] ++ [] ∧
    (removeFiles (loadedProject ["/proj/a.cpp".toList, "/proj/b.cpp".toList]
        ["b.cpp".toList, "a.cpp".toList] (fun _ => none)) ["/proj/a.cpp".toList]).Sublist
      (loadedProject ["/proj/a.cpp".toList, "/proj/b.cpp".toList]
        ["b.cpp".toList, "a.cpp".toList] (fun _ => none)).m_rawFileList :=
  ⟨(removeFiles_spec (loadedProject ["/proj/a.cpp".toList, "/proj/b.cpp".toList]
        ["b.cpp".toList, "a.cpp".toList] (fun _ => none)) ["/proj/a.cpp".toList]).2.2.2
      "/proj/a.cpp".toList "a.cpp".toList ["b.cpp".toList] [] (by decide) (by decide) (by decide),
    (removeFiles_spec _ _).1⟩

/-! ## What the mapping points at -/

/-- C6, at the failing inputs. The raw line ` a.cpp` (a leading blank), with
`/proj/a.cpp` on disk: after `parseProject` the path `/proj/a.cpp` is in
`files()` and is mapped to `a.cpp`, the trimmed string, which is no element
of the raw file list. The raw line `$$(D)/a.cpp` with `D=src` and
`/proj/src/a.cpp` on disk: the path is mapped to `src/a.cpp`, the expanded
string, which is no element of the raw file list either. -/
theorem rawListEntries_not_raw :
    (loadedProject ["/proj/a.cpp".toList] [" a.cpp".toList] (fun _ => none)).m_files
      = ["/proj/a.cpp".toList] ∧
    (loadedProject ["/proj/a.cpp".toList] [" a.cpp".toList] (fun _ => none)).m_rawListEntries
        "/proj/a.cpp".toList = some "a.cpp".toList ∧
    "a.cpp".toList ∉
      (loadedProject ["/proj/a.cpp".toList] [" a.cpp".toList] (fun _ => none)).m_rawFileList ∧
    (loadedProject ["/proj/src/a.cpp".toList] ["$$(D)/a.cpp".toList]
        (fun n => if n = "D".toList then some "src".toList else none)).m_files
      = ["/proj/src/a.cpp".toList] ∧
    (loadedProject ["/proj/src/a.cpp".toList] ["$$(D)/a.cpp".toList]
        (fun n => if n = "D".toList then some "src".toList else none)).m_rawListEntries
        "/proj/src/a.cpp".toList = some "src/a.cpp".toList ∧
    "src/a.cpp".toList ∉
      (loadedProject ["/proj/src/a.cpp".toList] ["$$(D)/a.cpp".toList]
        (fun n => if n = "D".toList then some "src".toList else none)).m_rawFileList := by
  refine ⟨by decide, by decide, by decide, by decide, by decide, by decide⟩

/-! ## Replacing the file list -/

theorem foldl_append_singleton (f : QString → QString) (xs : QStringList) :
    ∀ acc : QStringList, xs.foldl (fun l x => l ++ [f x]) acc = acc ++ xs.map f := by
  induction xs with
  | nil => intro acc; simp
  | cons x xs ih => intro acc; simp [ih]

theorem setFiles_eq (H : Host) (p : GenericProject) (filePaths : QStringList) :
    setFiles H p filePaths = (filePaths.map H.relativeFilePath).insertionSort (· ≤ ·) := by
  simp [setFiles, Utils.sort, foldl_append_singleton]

/-- C8: the list `setFiles` hands to persistence is sorted and is a
rearrangement of the root-relative forms of the paths; it is the same for
any two projects (prior raw list, prior mapping) and any two path lists that
are permutations of each other, in particular for the same list twice. -/
theorem setFiles_spec (H : Host) (p q : GenericProject) (paths paths1 : QStringList)
    (h : paths.Perm paths1) :
    List.Sorted (· ≤ ·) (setFiles H p paths) ∧
    (setFiles H p paths).Perm (paths.map H.relativeFilePath) ∧
    setFiles H p paths = setFiles H q paths1 := by
  rw [setFiles_eq, setFiles_eq]
  refine ⟨List.sorted_insertionSort _ _, List.perm_insertionSort _ _, ?_⟩
  apply List.eq_of_perm_of_sorted (r := (· ≤ ·))
  · exact (List.perm_insertionSort _ _).trans
      ((h.map _).trans (List.perm_insertionSort _ _).symm)
  · exact List.sorted_insertionSort _ _
  · exact List.sorted_insertionSort _ _

/-- C8 at a concrete input: `setFiles` on `/proj/b.cpp`, `/proj/a.cpp` and on
the two paths in the other order, from two different projects, persists
`["a.cpp", "b.cpp"]` both times. -/
theorem setFiles_spec_witness :
    setFiles (demoHost [] (fun _ => none)) emptyProject
        ["/proj/b.cpp".toList, "/proj/a.cpp".toList] = ["a.cpp".toList, "b.cpp".toList] ∧
    setFiles (demoHost [] (fun _ => none)) emptyProject
        ["/proj/b.cpp".toList, "/proj/a.cpp".toList]
      = setFiles (demoHost [] (fun _ => none))
          (loadedProject ["/proj/z.cpp".toList] ["z.cpp".toList] (fun _ => none))
          ["/proj/a.cpp".toList, "/proj/b.cpp".toList] :=
  ⟨by decide, (setFiles_spec (demoHost [] (fun _ => none)) emptyProject
    (loadedProject ["/proj/z.cpp".toList] ["z.cpp".toList] (fun _ => none))
    ["/proj/b.cpp".toList, "/proj/a.cpp".toList] ["/proj/a.cpp".toList, "/proj/b.cpp".toList]
    (List.Perm.swap _ _ _)).2.2⟩

/-! ## Growth of the include list -/

/-- The loop that collects `toAdd`, started on an arbitrary set: it keeps the
set free of duplicates and adds exactly the directories of the paths that are
neither include paths nor in the set already. -/
theorem toAdd_fold (f : QString → QString) (includes : QStringList) (filePaths : QStringList) :
    ∀ acc : QStringList, acc.Nodup →
      (filePaths.foldl (fun toAdd filePath =>
          if ¬ f filePath ∈ includes ∧ ¬ f filePath ∈ toAdd then toAdd ++ [f filePath]
          else toAdd) acc).Nodup ∧
      ∀ d, d ∈ filePaths.foldl (fun toAdd filePath =>
          if ¬ f filePath ∈ includes ∧ ¬ f filePath ∈ toAdd then toAdd ++ [f filePath]
          else toAdd) acc
        ↔ d ∈ acc ∨ (d ∈ filePaths.map f ∧ d ∉ includes) := by
  induction filePaths with
  | nil => intro acc h; simp [h]
  | cons q qs ih =>
    intro acc hacc
    simp only [List.foldl_cons]
    by_cases hc : ¬ f q ∈ includes ∧ ¬ f q ∈ acc
    · rw [if_pos hc]
      have hnd : (acc ++ [f q]).Nodup := by
        rw [List.nodup_append]
        refine ⟨hacc, List.nodup_singleton _, ?_⟩
        intro a ha hb
        simp only [List.mem_singleton] at hb
        exact hc.2 (hb ▸ ha)
      refine ⟨(ih _ hnd).1, fun d => ?_⟩
      rw [(ih _ hnd).2 d]
      simp only [List.mem_append, List.map_cons, List.mem_cons, List.not_mem_nil, or_false]
      constructor
      · rintro ((h | h) | h)
        · exact Or.inl h
        · exact Or.inr ⟨Or.inl h, h ▸ hc.1⟩
        · exact Or.inr ⟨Or.inr h.1, h.2⟩
      · rintro (h | ⟨h | h, h2⟩)
        · exact Or.inl (Or.inl h)
        · exact Or.inl (Or.inr h)
        · exact Or.inr ⟨h, h2⟩
    · rw [if_neg hc]
      refine ⟨(ih _ hacc).1, fun d => ?_⟩
      rw [(ih _ hacc).2 d]
      simp only [List.map_cons, List.mem_cons]
      constructor
      · rintro (h | h)
        · exact Or.inl h
        · exact Or.inr ⟨Or.inr h.1, h.2⟩
      · rintro (h | ⟨h | h, h2⟩)
        · exact Or.inl h
        · by_cases hin : f q ∈ acc
          · exact Or.inl (h ▸ hin)
          · exact absurd (h ▸ h2) (fun hni => hc ⟨hni, hin⟩)
        · exact Or.inr ⟨h, h2⟩

/-- C9: when walking through a `QSet` visits every element once, the include
list `addFiles` hands to persistence is the previous raw include list followed
by one entry for each directory of a list `dirs` without duplicates, whose
elements are exactly the containing directories of the input paths that are
not in the resolved include paths; the entry for a directory is its path
relative to the project root, or `.` when that is empty. -/
theorem addFiles_includes (H : Host) (p : GenericProject) (filePaths : QStringList)
    (hq : ∀ l : QStringList, (H.qsetOrder l).Perm l) :
    ∃ dirs : QStringList,
      (addFiles H p filePaths).2
        = p.m_rawProjectIncludePaths
          ++ dirs.map (fun d => if H.relativeFilePath d = [] then ['.'] else H.relativeFilePath d) ∧
      dirs.Nodup ∧
      ∀ d, d ∈ dirs ↔ (d ∈ filePaths.map H.absolutePath ∧ d ∉ p.m_projectIncludePaths) := by
  have hfold := toAdd_fold H.absolutePath p.m_projectIncludePaths filePaths [] List.nodup_nil
  refine ⟨H.qsetOrder (addFiles.toAdd H p filePaths), ?_, ?_, ?_⟩
  · simp only [addFiles, foldl_append_singleton]
    congr 1
    apply List.map_congr_left
    intro d _
    simp [addFiles.relative, List.isEmpty_iff]
  · exact (hq _).nodup_iff.mpr hfold.1
  · intro d
    rw [(hq _).mem_iff]
    have := hfold.2 d
    simpa [addFiles.toAdd] using this

/-- C9, the example scenario: `addFiles(["/proj/src/new/x.cpp"])` with root
`/proj` and no include paths yet appends `src/new`; a file in the project
root itself appends `.`; a directory that is an include path already appends
nothing. -/
theorem addFiles_includes_witness :
    (addFiles (demoHost [] (fun _ => none)) emptyProject ["/proj/src/new/x.cpp".toList]).2
      = ["src/new".toList] ∧
    (addFiles (demoHost [] (fun _ => none))
        { emptyProject with m_rawProjectIncludePaths := ["inc".toList] }
        ["/proj/x.cpp".toList, "/proj/src/y.cpp".toList, "/proj/z.cpp".toList]).2
      = ["inc".toList, ".".toList, "src".toList] ∧
    (addFiles (demoHost [] (fun _ => none))
        { emptyProject with m_rawProjectIncludePaths := ["src".toList],
                            m_projectIncludePaths := ["/proj/src".toList] }
        ["/proj/src/y.cpp".toList]).2
      = ["src".toList] ∧
    ∃ dirs : QStringList,
      (addFiles (demoHost [] (fun _ => none)) emptyProject ["/proj/src/new/x.cpp".toList]).2
        = emptyProject.m_rawProjectIncludePaths
          ++ dirs.map (fun d =>
              if (demoHost [] (fun _ => none)).relativeFilePath d = [] then ['.']
              else (demoHost [] (fun _ => none)).relativeFilePath d) ∧
      dirs.Nodup ∧
      ∀ d, d ∈ dirs ↔
        (d ∈ ["/proj/src/new/x.cpp".toList].map (demoHost [] (fun _ => none)).absolutePath ∧
          d ∉ emptyProject.m_projectIncludePaths) :=
  ⟨by decide, by decide, by decide,
    addFiles_includes (demoHost [] (fun _ => none)) emptyProject ["/proj/src/new/x.cpp".toList]
      (fun l => List.Perm.refl l)⟩

/-! ## Silent filtering in `processEntries` -/

theorem mem_removeDuplicates (l : QStringList) (x : QString) :
    x ∈ QStringList.removeDuplicates l ↔ x ∈ l := by
  induction l with
  | nil => simp [QStringList.removeDuplicates]
  | cons a as ih =>
    simp only [QStringList.removeDuplicates, List.mem_cons, List.mem_filter, ih,
      decide_eq_true_eq]
    constructor
    · rintro (h | h)
      · exact Or.inl h
      · exact Or.inr h.1
    · rintro (h | h)
      · exact Or.inl h
      · by_cases hx : x = a
        · exact Or.inl hx
        · exact Or.inr ⟨h, hx⟩

theorem nodup_removeDuplicates (l : QStringList) : (QStringList.removeDuplicates l).Nodup := by
  induction l with
  | nil => simp [QStringList.removeDuplicates]
  | cons a as ih =>
    simp only [QStringList.removeDuplicates, List.nodup_cons, List.mem_filter,
      decide_eq_true_eq]
    exact ⟨fun h => h.2 rfl, ih.filter _⟩

/-- A raw entry that is empty after trimming, or whose resolved path does not
exist, leaves the list and the map of the loop as they are. -/
theorem processEntry_dropped (H : Host) (acc : QStringList × Option QHash) (path : QString)
    (h : QString.trimmed path = [] ∨
      H.fileExists (H.absoluteFilePath (H.fromUserInput
        (expandEnvironmentVariables H.env (QString.trimmed path)))) = false) :
    processEntry H acc path = acc := by
  unfold processEntry
  rcases h with h | h
  · simp [h]
  · simp [h]

/-- The loop of `processEntries` keeps two facts: every collected path
passed the existence check, and the keys of the map are the collected
paths. -/
theorem processEntries_fold (H : Host) (paths : QStringList) :
    ∀ (abs : QStringList) (m : QHash),
      (∀ x ∈ abs, H.fileExists x = true) → (∀ k, (m k).isSome ↔ k ∈ abs) →
      ∃ (abs1 : QStringList) (m1 : QHash),
        paths.foldl (processEntry H) (abs, some m) = (abs1, some m1) ∧
        (∀ x ∈ abs1, H.fileExists x = true) ∧ (∀ k, (m1 k).isSome ↔ k ∈ abs1) := by
  induction paths with
  | nil => intro abs m h1 h2; exact ⟨abs, m, rfl, h1, h2⟩
  | cons q qs ih =>
    intro abs m h1 h2
    simp only [List.foldl_cons]
    by_cases hq : QString.trimmed q = [] ∨
      H.fileExists (H.absoluteFilePath (H.fromUserInput
        (expandEnvironmentVariables H.env (QString.trimmed q)))) = false
    · rw [processEntry_dropped H _ q hq]
      exact ih abs m h1 h2
    · simp only [not_or, Bool.not_eq_false] at hq
      have hstep : processEntry H (abs, some m) q
          = (abs ++ [H.absoluteFilePath (H.fromUserInput
                (expandEnvironmentVariables H.env (QString.trimmed q)))],
             some (QHash.insert m
               (H.absoluteFilePath (H.fromUserInput
                (expandEnvironmentVariables H.env (QString.trimmed q))))
               (H.fromUserInput (expandEnvironmentVariables H.env (QString.trimmed q))))) := by
        unfold processEntry
        simp [hq.1, hq.2]
      rw [hstep]
      apply ih
      · intro x hx
        rcases List.mem_append.mp hx with hx | hx
        · exact h1 x hx
        · rw [List.mem_singleton.mp hx]; exact hq.2
      · intro k
        by_cases hk : k = H.absoluteFilePath (H.fromUserInput
            (expandEnvironmentVariables H.env (QString.trimmed q)))
        · simp [QHash.insert, hk]
        · simp [QHash.insert, hk, h2 k]

theorem processEntries_fold_append (H : Host) (l1 l2 : QStringList) (path : QString)
    (acc : QStringList × Option QHash)
    (h : QString.trimmed path = [] ∨
      H.fileExists (H.absoluteFilePath (H.fromUserInput
        (expandEnvironmentVariables H.env (QString.trimmed path)))) = false) :
    (l1 ++ path :: l2).foldl (processEntry H) acc = (l1 ++ l2).foldl (processEntry H) acc := by
  rw [List.foldl_append, List.foldl_append, List.foldl_cons, processEntry_dropped H _ path h]

/-- C10: for every raw list and every host (file system), `processEntries`
called with an empty map returns a list without duplicates whose paths all
passed the existence check, and leaves a map whose keys are exactly the
returned paths; a raw entry that is empty after trimming, or whose resolved
path does not exist, can be taken out of the raw list without changing the
returned list or the map, whatever map is passed. -/
theorem processEntries_filtering (H : Host) (paths : QStringList) :
    (processEntries H paths (some QHash.empty)).1.Nodup ∧
    (∀ x ∈ (processEntries H paths (some QHash.empty)).1, H.fileExists x = true) ∧
    (∃ m : QHash, (processEntries H paths (some QHash.empty)).2 = some m ∧
      ∀ k, (m k).isSome ↔ k ∈ (processEntries H paths (some QHash.empty)).1) ∧
    (∀ (l1 l2 : QStringList) (path : QString) (map : Option QHash),
      paths = l1 ++ path :: l2 →
      (QString.trimmed path = [] ∨
        H.fileExists (H.absoluteFilePath (H.fromUserInput
          (expandEnvironmentVariables H.env (QString.trimmed path)))) = false) →
      processEntries H paths map = processEntries H (l1 ++ l2) map) := by
  obtain ⟨abs1, m1, hfold, hex, hkeys⟩ := processEntries_fold H paths [] QHash.empty
    (by simp) (by simp [QHash.empty])
  refine ⟨nodup_removeDuplicates _, ?_, ⟨m1, ?_, ?_⟩, ?_⟩
  · intro x hx
    simp only [processEntries, hfold, mem_removeDuplicates] at hx
    exact hex x hx
  · simp [processEntries, hfold]
  · intro k
    simp only [processEntries, hfold, mem_removeDuplicates]
    exact hkeys k
  · intro l1 l2 path map hp h
    subst hp
    simp only [processEntries, processEntries_fold_append H l1 l2 path _ h]

/-- C10 at a concrete input: of the raw entries `a.cpp`, a blank line,
`gone.cpp` (not on disk) and ` a.cpp`, with `/proj/a.cpp` on disk,
`processEntries` returns `/proj/a.cpp` once; the blank line can be taken out
of the raw list without changing the outcome. -/
theorem processEntries_filtering_witness :
    (processEntries (demoHost ["/proj/a.cpp".toList] (fun _ => none))
        ["a.cpp".toList, " ".toList, "gone.cpp".toList, " a.cpp".toList]
        (some QHash.empty)).1 = ["/proj/a.cpp".toList] ∧
    processEntries (demoHost ["/proj/a.cpp".toList] (fun _ => none))
        ["a.cpp".toList, " ".toList, "gone.cpp".toList, " a.cpp".toList] (some QHash.empty)
      = processEntries (demoHost ["/proj/a.cpp".toList] (fun _ => none))
        (["a.cpp".toList] ++ ["gone.cpp".toList, " a.cpp".toList]) (some QHash.empty) :=
  ⟨by decide,
    (processEntries_filtering (demoHost ["/proj/a.cpp".toList] (fun _ => none))
      ["a.cpp".toList, " ".toList, "gone.cpp".toList, " a.cpp".toList]).2.2.2
      ["a.cpp".toList] ["gone.cpp".toList, " a.cpp".toList] " ".toList (some QHash.empty)
      (by decide) (Or.inl (by decide))⟩

/-! ## Adding files and reading them back -/

theorem mem_QList_insert (l : QStringList) (i : Int) (v x : QString) :
    x ∈ QList.insert l i v ↔ x = v ∨ x ∈ l := by
  unfold QList.insert
  split
  · simp
  · split
    · simp [or_comm]
    · have h : x ∈ l ↔ x ∈ l.take i.toNat ++ l.drop i.toNat := by rw [List.take_append_drop]
      rw [h]
      simp only [List.mem_append, List.mem_cons]
      tauto

theorem mem_insertSorted (l : QStringList) (v x : QString) :
    x ∈ insertSorted l v ↔ x = v ∨ x ∈ l := by
  simp [insertSorted, mem_QList_insert]

theorem mem_addFiles_newList (f : QString → QString) (filePaths : QStringList) :
    ∀ (l : QStringList) (x : QString),
      x ∈ filePaths.foldl (fun newList filePath => insertSorted newList (f filePath)) l
        ↔ x ∈ l ∨ x ∈ filePaths.map f := by
  induction filePaths with
  | nil => intro l x; simp
  | cons q qs ih =>
    intro l x
    simp only [List.foldl_cons, ih, mem_insertSorted, List.map_cons, List.mem_cons]
    tauto

theorem readLine_length (s : List Char) (line : QString) (rest : List Char)
    (h : QTextStream.readLine s = some (line, rest)) : rest.length < s.length := by
  unfold QTextStream.readLine at h
  split at h
  · cases h
  · rename_i hs
    simp only [Option.some.injEq, Prod.mk.injEq] at h
    rw [← h.2]
    have hle := (List.dropWhile_sublist (fun c => decide (c ≠ '\n')) (l := s)).length_le
    have hpos : 0 < s.length := List.length_pos.mpr hs
    simp only [List.length_drop]
    omega

/-- The loop of `readLines` leaves within its bound when the bound exceeds
the length of the text, and the lines read before are a part of the result. -/
theorem readLinesLoop_total :
    ∀ (fuel : Nat) (stream : List Char) (lines : QStringList), stream.length < fuel →
      ∃ r, readLinesLoop fuel stream lines = some r ∧ ∀ x ∈ lines, x ∈ r := by
  intro fuel
  induction fuel with
  | zero => intro stream lines h; omega
  | succ n ih =>
    intro stream lines h
    unfold readLinesLoop
    cases hr : QTextStream.readLine stream with
    | none => exact ⟨lines, rfl, fun x hx => hx⟩
    | some lr =>
      obtain ⟨line, rest⟩ := lr
      have hlen := readLine_length stream line rest hr
      obtain ⟨r, hr1, hr2⟩ := ih rest (lines ++ [line]) (by omega)
      exact ⟨r, hr1, fun x hx => hr2 x (List.mem_append_left _ hx)⟩

theorem readsLine_step (s : List Char) (line : QString) (rest : List Char) (x : QString)
    (h : QTextStream.readLine s = some (line, rest)) (hx : ReadsLine rest x) :
    ReadsLine s x := by
  intro fuel lines hf
  cases fuel with
  | zero => omega
  | succ n =>
    have hlen := readLine_length s line rest h
    simp only [readLinesLoop, h]
    exact hx n _ (by omega)

theorem readsLine_entry (x : QString) (rest : List Char)
    (h : '\n' ∉ x ∧ x.getLast? ≠ some '\r') : ReadsLine (x ++ '\n' :: rest) x := by
  intro fuel lines hf
  cases fuel with
  | zero => omega
  | succ n =>
    simp only [readLinesLoop, readLine_line x rest h.1, if_neg h.2]
    obtain ⟨r, hr1, hr2⟩ := readLinesLoop_total n rest (lines ++ [x])
      (by simp only [List.length_append, List.length_cons] at hf; omega)
    exact ⟨r, hr1, hr2 x (by simp)⟩

theorem readsLine_skip (x : QString) (rest : List Char) (hx : ReadsLine rest x) (e : QString) :
    ∀ pre : List Char, '\n' ∉ pre → ReadsLine (pre ++ e ++ '\n' :: rest) x := by
  induction e with
  | nil =>
    intro pre hpre
    rw [List.append_nil]
    exact readsLine_step _ _ rest x (readLine_line pre rest hpre) hx
  | cons c cs ih =>
    intro pre hpre
    by_cases hc : c = '\n'
    · subst hc
      have hs : pre ++ '\n' :: cs ++ '\n' :: rest = pre ++ '\n' :: ([] ++ cs ++ '\n' :: rest) := by
        simp
      rw [hs]
      exact readsLine_step _ _ _ x (readLine_line pre _ hpre) (ih [] (by simp))
    · have hs : pre ++ c :: cs ++ '\n' :: rest = (pre ++ [c]) ++ cs ++ '\n' :: rest := by simp
      rw [hs]
      apply ih
      simp only [List.mem_append, List.mem_singleton, not_or]
      exact ⟨hpre, fun h => hc h.symm⟩

theorem saveRawList_append (l1 l2 : QStringList) :
    saveRawList (l1 ++ l2) = saveRawList l1 ++ saveRawList l2 := by
  simp [saveRawList]

/-- An entry without a line feed that does not end in a carriage return is
among the lines read back from the saved list, whatever the other entries
are. -/
theorem mem_readLines_saveRawList (l : QStringList) (x : QString) (hx : x ∈ l)
    (h : '\n' ∉ x ∧ x.getLast? ≠ some '\r') : x ∈ readLines (some (saveRawList l)) := by
  obtain ⟨l1, l2, rfl⟩ := List.append_of_mem hx
  have hreads : ReadsLine (saveRawList (l1 ++ x :: l2)) x := by
    rw [saveRawList_append, saveRawList_cons]
    induction l1 with
    | nil => exact readsLine_entry x _ h
    | cons e es ih =>
      rw [saveRawList_cons]
      have := readsLine_skip x _ (ih (by simp)) e [] (by simp)
      simpa using this
  obtain ⟨r, hr1, hr2⟩ := hreads ((saveRawList (l1 ++ x :: l2)).length + 1) [] (by omega)
  simp only [readLines, hr1, Option.getD_some]
  exact hr2

theorem processEntry_kept (H : Host) (acc : QStringList × Option QHash) (path : QString)
    (hne : QString.trimmed path ≠ [])
    (hex : H.fileExists (H.absoluteFilePath (H.fromUserInput
        (expandEnvironmentVariables H.env (QString.trimmed path)))) = true) :
    processEntry H acc path
      = (acc.1 ++ [H.absoluteFilePath (H.fromUserInput
            (expandEnvironmentVariables H.env (QString.trimmed path)))],
         acc.2.map (fun m => QHash.insert m
            (H.absoluteFilePath (H.fromUserInput
              (expandEnvironmentVariables H.env (QString.trimmed path))))
            (H.fromUserInput (expandEnvironmentVariables H.env (QString.trimmed path))))) := by
  unfold processEntry
  simp [hne, hex]

theorem processEntry_cases (H : Host) (acc : QStringList × Option QHash) (path : QString) :
    processEntry H acc path = acc ∨
    (H.fileExists (H.absoluteFilePath (H.fromUserInput
        (expandEnvironmentVariables H.env (QString.trimmed path)))) = true ∧
      (processEntry H acc path).1
        = acc.1 ++ [H.absoluteFilePath (H.fromUserInput
            (expandEnvironmentVariables H.env (QString.trimmed path)))]) := by
  by_cases hq : QString.trimmed path = [] ∨
      H.fileExists (H.absoluteFilePath (H.fromUserInput
        (expandEnvironmentVariables H.env (QString.trimmed path)))) = false
  · exact Or.inl (processEntry_dropped H acc path hq)
  · simp only [not_or, Bool.not_eq_false] at hq
    exact Or.inr ⟨hq.2, by rw [processEntry_kept H acc path hq.1 hq.2]⟩

theorem processEntry_mono (H : Host) (acc : QStringList × Option QHash) (path x : QString)
    (hx : x ∈ acc.1) : x ∈ (processEntry H acc path).1 := by
  rcases processEntry_cases H acc path with h | h
  · rw [h]; exact hx
  · rw [h.2]; exact List.mem_append_left _ hx

theorem processEntries_fold_mono (H : Host) (paths : QStringList) :
    ∀ (acc : QStringList × Option QHash) (x : QString), x ∈ acc.1 →
      x ∈ (paths.foldl (processEntry H) acc).1 := by
  induction paths with
  | nil => intro acc x hx; exact hx
  | cons q qs ih =>
    intro acc x hx
    exact ih _ x (processEntry_mono H acc q x hx)

/-- A raw entry that is not empty after trimming and whose resolved path
exists puts that path into the list `processEntries` returns. -/
theorem mem_processEntries (H : Host) (paths : QStringList) (map : Option QHash)
    (raw : QString) (hraw : raw ∈ paths) (hne : QString.trimmed raw ≠ [])
    (hex : H.fileExists (H.absoluteFilePath (H.fromUserInput
        (expandEnvironmentVariables H.env (QString.trimmed raw)))) = true) :
    H.absoluteFilePath (H.fromUserInput (expandEnvironmentVariables H.env (QString.trimmed raw)))
      ∈ (processEntries H paths map).1 := by
  obtain ⟨l1, l2, rfl⟩ := List.append_of_mem hraw
  simp only [processEntries, mem_removeDuplicates, List.foldl_append, List.foldl_cons]
  apply processEntries_fold_mono
  rw [processEntry_kept H _ raw hne hex]
  simp

theorem processEntries_exist (H : Host) (paths : QStringList) (map : Option QHash) :
    ∀ x ∈ (processEntries H paths map).1, H.fileExists x = true := by
  have hfold : ∀ (l : QStringList) (acc : QStringList × Option QHash),
      (∀ x ∈ acc.1, H.fileExists x = true) →
      ∀ x ∈ (l.foldl (processEntry H) acc).1, H.fileExists x = true := by
    intro l
    induction l with
    | nil => intro acc h; exact h
    | cons q qs ih =>
      intro acc h
      apply ih
      intro x hx
      rcases processEntry_cases H acc q with hc | hc
      · rw [hc] at hx; exact h x hx
      · rw [hc.2] at hx
        rcases List.mem_append.mp hx with hx | hx
        · exact h x hx
        · rw [List.mem_singleton.mp hx]; exact hc.1
  intro x hx
  simp only [processEntries, mem_removeDuplicates] at hx
  exact hfold paths _ (by simp) x hx

theorem addFilesAndRefresh_files (H : Host) (disk : Disk) (p : GenericProject)
    (filePaths : QStringList) :
    (addFilesAndRefresh H true true disk p filePaths).2.m_files
      = (processEntries H (readLines (some (saveRawList (addFiles H p filePaths).1)))
          (some QHash.empty)).1 := by
  simp [addFilesAndRefresh, parseProject, writeFile, RefreshOptions.hasFiles,
    RefreshOptions.hasConfiguration]

/-- C7 as stated fails. The file `/proj/a` line feed `b.cpp` (a line feed
inside its name) is on disk and its root-relative form resolves back to it,
also when treated as `processEntries` treats a raw entry; yet after
`addFiles` and the refresh the resolved file set is empty, because the entry
is read back as the two lines `a` and `b.cpp`. The same happens to the file
`/proj/a.cpp ` (its name ends in a blank), because the line read back is
trimmed to `a.cpp` before it is resolved. -/
theorem addFiles_refresh_loses_path :
    (demoHost ["/proj/a\nb.cpp".toList] (fun _ => none)).absoluteFilePath
        ((demoHost ["/proj/a\nb.cpp".toList] (fun _ => none)).relativeFilePath
          "/proj/a\nb.cpp".toList)
      = "/proj/a\nb.cpp".toList ∧
    (demoHost ["/proj/a\nb.cpp".toList] (fun _ => none)).absoluteFilePath
        ((demoHost ["/proj/a\nb.cpp".toList] (fun _ => none)).fromUserInput
          (expandEnvironmentVariables (fun _ => none) (QString.trimmed
            ((demoHost ["/proj/a\nb.cpp".toList] (fun _ => none)).relativeFilePath
              "/proj/a\nb.cpp".toList))))
      = "/proj/a\nb.cpp".toList ∧
    (demoHost ["/proj/a\nb.cpp".toList] (fun _ => none)).fileExists "/proj/a\nb.cpp".toList
      = true ∧
    (addFilesAndRefresh (demoHost ["/proj/a\nb.cpp".toList] (fun _ => none)) true true
        { filesFile := none, includesFile := none } emptyProject
        ["/proj/a\nb.cpp".toList]).2.m_rawFileList = ["a".toList, "b.cpp".toList] ∧
    (addFilesAndRefresh (demoHost ["/proj/a\nb.cpp".toList] (fun _ => none)) true true
        { filesFile := none, includesFile := none } emptyProject
        ["/proj/a\nb.cpp".toList]).2.m_files = [] ∧
    (demoHost ["/proj/a.cpp ".toList] (fun _ => none)).absoluteFilePath
        ((demoHost ["/proj/a.cpp ".toList] (fun _ => none)).relativeFilePath "/proj/a.cpp ".toList)
      = "/proj/a.cpp ".toList ∧
    (demoHost ["/proj/a.cpp ".toList] (fun _ => none)).fileExists "/proj/a.cpp ".toList = true ∧
    (addFilesAndRefresh (demoHost ["/proj/a.cpp ".toList] (fun _ => none)) true true
        { filesFile := none, includesFile := none } emptyProject
        ["/proj/a.cpp ".toList]).2.m_files = [] := by
  refine ⟨by decide, by decide, by decide, by decide, by decide, by decide, by decide,
    by decide⟩

/-- C7, amended: when both list files are persisted successfully, after
`addFiles` and its `refresh(Everything)` the resolved file set contains no
added path that does not exist on disk, and it contains every added path that
exists on disk and whose root-relative form has no line feed, does not end in
a carriage return, is not empty after trimming and, once trimmed, expanded
and passed through `fromUserInput`, resolves back to the path. This holds for
every prior project, every prior content of the files and every host. -/
theorem addFiles_refresh (H : Host) (disk : Disk) (p : GenericProject)
    (filePaths : QStringList) :
    (∀ path ∈ filePaths, H.fileExists path = false →
      path ∉ (addFilesAndRefresh H true true disk p filePaths).2.m_files) ∧
    (∀ path ∈ filePaths, H.fileExists path = true →
      '\n' ∉ H.relativeFilePath path →
      (H.relativeFilePath path).getLast? ≠ some '\r' →
      QString.trimmed (H.relativeFilePath path) ≠ [] →
      H.absoluteFilePath (H.fromUserInput (expandEnvironmentVariables H.env
        (QString.trimmed (H.relativeFilePath path)))) = path →
      path ∈ (addFilesAndRefresh H true true disk p filePaths).2.m_files) := by
  rw [addFilesAndRefresh_files]
  constructor
  · intro path _ hne hmem
    have := processEntries_exist H _ _ path hmem
    rw [hne] at this
    cases this
  · intro path hpath hex hlf hcr htrim hres
    have hnew : H.relativeFilePath path ∈ (addFiles H p filePaths).1 := by
      simp only [addFiles, mem_addFiles_newList]
      exact Or.inr (List.mem_map_of_mem _ hpath)
    have hread := mem_readLines_saveRawList _ _ hnew ⟨hlf, hcr⟩
    have hmem := mem_processEntries H _ (some QHash.empty) _ hread htrim (by rw [hres]; exact hex)
    rw [hres] at hmem
    exact hmem

/-- C7, amended, at a concrete input: with `/proj/a.cpp` on disk and
`/proj/b.cpp` not, `addFiles` on both paths and the refresh leave
`/proj/a.cpp` in the resolved file set and `/proj/b.cpp` out of it. -/
theorem addFiles_refresh_witness :
    "/proj/a.cpp".toList ∈
      (addFilesAndRefresh (demoHost ["/proj/a.cpp".toList, "/proj/z.cpp".toList] (fun _ => none))
        true true { filesFile := none, includesFile := none }
        (loadedProject ["/proj/a.cpp".toList, "/proj/z.cpp".toList] ["z.cpp".toList]
          (fun _ => none))
        ["/proj/a.cpp".toList, "/proj/b.cpp".toList]).2.m_files ∧
    "/proj/b.cpp".toList ∉
      (addFilesAndRefresh (demoHost ["/proj/a.cpp".toList, "/proj/z.cpp".toList] (fun _ => none))
        true true { filesFile := none, includesFile := none }
        (loadedProject ["/proj/a.cpp".toList, "/proj/z.cpp".toList] ["z.cpp".toList]
          (fun _ => none))
        ["/proj/a.cpp".toList, "/proj/b.cpp".toList]).2.m_files :=
  ⟨(addFiles_refresh (demoHost ["/proj/a.cpp".toList, "/proj/z.cpp".toList] (fun _ => none))
      { filesFile := none, includesFile := none }
      (loadedProject ["/proj/a.cpp".toList, "/proj/z.cpp".toList] ["z.cpp".toList]
        (fun _ => none))
      ["/proj/a.cpp".toList, "/proj/b.cpp".toList]).2 "/proj/a.cpp".toList
      (by decide) (by decide) (by decide) (by decide) (by decide) (by decide),
    (addFiles_refresh (demoHost ["/proj/a.cpp".toList, "/proj/z.cpp".toList] (fun _ => none))
      { filesFile := none, includesFile := none }
      (loadedProject ["/proj/a.cpp".toList, "/proj/z.cpp".toList] ["z.cpp".toList]
        (fun _ => none))
      ["/proj/a.cpp".toList, "/proj/b.cpp".toList]).1 "/proj/b.cpp".toList
      (by decide) (by decide)⟩

/-! ## The order of the new include entries -/

/-- The loop that collects `toAdd`, started on an arbitrary set: the
elements come in order of discovery. -/
theorem toAdd_fold_order (f : QString → QString) (includes : QStringList)
    (filePaths : QStringList) :
    ∀ acc : QStringList,
      filePaths.foldl (fun toAdd filePath =>
          if ¬ f filePath ∈ includes ∧ ¬ f filePath ∈ toAdd then toAdd ++ [f filePath]
          else toAdd) acc
        = acc ++ (QStringList.removeDuplicates
            ((filePaths.map f).filter (fun d => decide (d ∉ includes)))).filter
              (fun d => decide (d ∉ acc)) := by
  induction filePaths with
  | nil => intro acc; simp [QStringList.removeDuplicates]
  | cons q qs ih =>
    intro acc
    simp only [List.foldl_cons, List.map_cons]
    by_cases hinc : f q ∈ includes
    · rw [if_neg (by tauto), ih acc, List.filter_cons_of_neg (by simpa using hinc)]
    · by_cases hacc : f q ∈ acc
      · rw [if_neg (by tauto), ih acc, List.filter_cons_of_pos (by simpa using hinc)]
        simp only [QStringList.removeDuplicates]
        rw [List.filter_cons_of_neg (by simpa using hacc), List.filter_filter]
        congr 1
        apply List.filter_congr
        intro x _
        by_cases hx : x = f q
        · simp [hx, hacc]
        · simp [hx]
      · rw [if_pos ⟨hinc, hacc⟩, ih (acc ++ [f q]),
          List.filter_cons_of_pos (by simpa using hinc)]
        simp only [QStringList.removeDuplicates]
        rw [List.filter_cons_of_pos (by simpa using hacc), List.filter_filter]
        simp only [List.append_assoc, List.singleton_append]
        congr 2
        apply List.filter_congr
        intro x _
        by_cases hx : x = f q
        · simp [hx]
        · simp [hx]

/-- The set `toAdd`, as the list of its elements in the order of their
insertion, is the list of the new directories in order of discovery. -/
theorem toAdd_eq_discoveryOrder (H : Host) (p : GenericProject) (filePaths : QStringList) :
    addFiles.toAdd H p filePaths = discoveryOrder H p filePaths := by
  have h := toAdd_fold_order H.absolutePath p.m_projectIncludePaths filePaths []
  simpa [addFiles.toAdd, discoveryOrder] using h

/-- C11 as stated fails: on a host whose `QSet` is walked through in the
reverse of the order of insertion (every element once), `addFiles` on
`/proj/a/x.cpp` and `/proj/b/y.cpp` discovers `/proj/a` before `/proj/b` and
appends `b` before `a`. -/
theorem addFiles_include_order_reversed :
    (∀ l : QStringList, ((bucketHost [] (fun _ => none)).qsetOrder l).Perm l) ∧
    discoveryOrder (bucketHost [] (fun _ => none)) emptyProject
        ["/proj/a/x.cpp".toList, "/proj/b/y.cpp".toList]
      = ["/proj/a".toList, "/proj/b".toList] ∧
    (addFiles (bucketHost [] (fun _ => none)) emptyProject
        ["/proj/a/x.cpp".toList, "/proj/b/y.cpp".toList]).2
      = ["b".toList, "a".toList] ∧
    (addFiles (bucketHost [] (fun _ => none)) emptyProject
        ["/proj/a/x.cpp".toList, "/proj/b/y.cpp".toList]).2
      ≠ ["a".toList, "b".toList] := by
  refine ⟨fun l => List.reverse_perm l, by decide, by decide, by decide⟩

/-- C11, amended: when walking through a `QSet` visits every element once,
the entries `addFiles` appends to the raw include list are those of the new
directories in order of discovery, rearranged into the order in which the set
`toAdd` is walked through; they are in order of discovery when at most one
directory is new, and when the set is walked through in the order of
insertion. -/
theorem addFiles_include_order (H : Host) (p : GenericProject) (filePaths : QStringList)
    (hq : ∀ l : QStringList, (H.qsetOrder l).Perm l) :
    (addFiles H p filePaths).2
      = p.m_rawProjectIncludePaths
        ++ (H.qsetOrder (discoveryOrder H p filePaths)).map
            (fun d => if H.relativeFilePath d = [] then ['.'] else H.relativeFilePath d) ∧
    (H.qsetOrder (discoveryOrder H p filePaths)).Perm (discoveryOrder H p filePaths) ∧
    ((discoveryOrder H p filePaths).length ≤ 1 →
      (addFiles H p filePaths).2
        = p.m_rawProjectIncludePaths
          ++ (discoveryOrder H p filePaths).map
              (fun d => if H.relativeFilePath d = [] then ['.'] else H.relativeFilePath d)) ∧
    (H.qsetOrder (discoveryOrder H p filePaths) = discoveryOrder H p filePaths →
      (addFiles H p filePaths).2
        = p.m_rawProjectIncludePaths
          ++ (discoveryOrder H p filePaths).map
              (fun d => if H.relativeFilePath d = [] then ['.'] else H.relativeFilePath d)) := by
  have hmain : (addFiles H p filePaths).2
      = p.m_rawProjectIncludePaths
        ++ (H.qsetOrder (discoveryOrder H p filePaths)).map
            (fun d => if H.relativeFilePath d = [] then ['.'] else H.relativeFilePath d) := by
    simp only [addFiles, foldl_append_singleton, toAdd_eq_discoveryOrder]
    congr 1
    apply List.map_congr_left
    intro d _
    simp [addFiles.relative, List.isEmpty_iff]
  refine ⟨hmain, hq _, ?_, ?_⟩
  · intro hlen
    have hperm := hq (discoveryOrder H p filePaths)
    have heq : H.qsetOrder (discoveryOrder H p filePaths) = discoveryOrder H p filePaths := by
      cases hd : discoveryOrder H p filePaths with
      | nil => rw [hd] at hperm; exact List.Perm.eq_nil hperm
      | cons a t =>
        cases t with
        | nil => rw [hd] at hperm; exact List.perm_singleton.mp hperm
        | cons b t1 => rw [hd] at hlen; simp at hlen
    rw [hmain, heq]
  · intro heq
    rw [hmain, heq]

/-- C11, amended, at a concrete input: on the host that walks through a set
in the order of insertion, `addFiles` on files of `/proj/b`, `/proj/a` and
again `/proj/b` appends `b`, then `a`: the order of discovery, not the sorted
order. -/
theorem addFiles_include_order_witness :
    discoveryOrder (demoHost [] (fun _ => none)) emptyProject
        ["/proj/b/y.cpp".toList, "/proj/a/x.cpp".toList, "/proj/b/z.cpp".toList]
      = ["/proj/b".toList, "/proj/a".toList] ∧
    (addFiles (demoHost [] (fun _ => none)) emptyProject
        ["/proj/b/y.cpp".toList, "/proj/a/x.cpp".toList, "/proj/b/z.cpp".toList]).2
      = emptyProject.m_rawProjectIncludePaths
        ++ (discoveryOrder (demoHost [] (fun _ => none)) emptyProject
            ["/proj/b/y.cpp".toList, "/proj/a/x.cpp".toList, "/proj/b/z.cpp".toList]).map
          (fun d => if (demoHost [] (fun _ => none)).relativeFilePath d = [] then ['.']
            else (demoHost [] (fun _ => none)).relativeFilePath d) :=
  ⟨by decide,
    (addFiles_include_order (demoHost [] (fun _ => none)) emptyProject
      ["/proj/b/y.cpp".toList, "/proj/a/x.cpp".toList, "/proj/b/z.cpp".toList]
      (fun l => List.Perm.refl l)).2.2.2 rfl⟩

/-! ## Termination of the placeholder expansion -/

/-- The replacement of a placeholder that sits behind the texts `done` and
`pre` and in front of `suf`. -/
theorem replace_placeholder (done pre cap suf v : QString) :
    QString.replace (done ++ (pre ++ '$' :: '$' :: '(' :: (cap ++ ')' :: suf)))
        (done.length + pre.length) (cap.length + 4) v
      = done ++ pre ++ v ++ suf := by
  have hsplit : done ++ (pre ++ '$' :: '$' :: '(' :: (cap ++ ')' :: suf))
      = (done ++ pre) ++ (('$' :: '$' :: '(' :: (cap ++ [')'])) ++ suf) := by simp
  have hl1 : done.length + pre.length = (done ++ pre).length := by simp
  have hl2 : cap.length + 4 = ('$' :: '$' :: '(' :: (cap ++ [')'])).length := by simp
  unfold QString.replace
  rw [hsplit, hl1, List.take_left, List.drop_append, hl2, List.drop_left]

/-- One round of the loop, started with the search at any position `offset`:
the string splits into the part in front of the position, a text `pre`, the
placeholder and a rest `suf` without closing parenthesis; the round puts the
value in the place of the placeholder and leaves `suf` to be scanned. -/
theorem indexIn_round (env : QString → Option QString) (string : QString) (offset : Nat)
    (m : RegExpMatch) (h : QRegExp.indexIn string offset = some m) :
    ∃ pre suf : QString,
      string.drop offset = pre ++ '$' :: '$' :: '(' :: (m.cap1 ++ ')' :: suf) ∧
      ')' ∉ suf ∧ m.index = offset + pre.length ∧
      QString.replace string m.index m.matchedLength (QProcessEnvironment.value env m.cap1)
        = string.take offset ++ pre ++ QProcessEnvironment.value env m.cap1 ++ suf ∧
      (QString.replace string m.index m.matchedLength (QProcessEnvironment.value env m.cap1)).drop
          (m.index + (QProcessEnvironment.value env m.cap1).length) = suf ∧
      (QString.replace string m.index m.matchedLength (QProcessEnvironment.value env m.cap1)).take
          (m.index + (QProcessEnvironment.value env m.cap1).length)
        = string.take m.index ++ QProcessEnvironment.value env m.cap1 := by
  obtain ⟨pre, suf, hs1, hs2, hs3, hs4⟩ := indexInFrom_some (string.drop offset) offset m h
  have hoff : offset ≤ string.length := by
    by_contra hlt
    rw [List.drop_eq_nil_of_le (by omega)] at hs1
    simp at hs1
  have hlen : (string.take offset).length = offset := List.length_take_of_le hoff
  have hstr : string = string.take offset
      ++ (pre ++ '$' :: '$' :: '(' :: (m.cap1 ++ ')' :: suf)) := by
    rw [← hs1, List.take_append_drop]
  have hidx : m.index = (string.take offset).length + pre.length := by rw [hlen]; exact hs3
  have hrep : QString.replace string m.index m.matchedLength
      (QProcessEnvironment.value env m.cap1)
      = string.take offset ++ pre ++ QProcessEnvironment.value env m.cap1 ++ suf := by
    conv_lhs => rw [hstr]
    rw [hidx, hs4, replace_placeholder]
  have htake : string.take m.index = string.take offset ++ pre := by
    conv_lhs => rw [hstr]
    rw [hidx]
    have hl : (string.take offset).length + pre.length = (string.take offset ++ pre).length := by
      simp
    rw [← List.append_assoc, hl, List.take_left]
  have hl : m.index + (QProcessEnvironment.value env m.cap1).length
      = (string.take offset ++ pre ++ QProcessEnvironment.value env m.cap1).length := by
    simp only [List.length_append]; omega
  refine ⟨pre, suf, hs1, hs2, hs3, hrep, ?_, ?_⟩
  · rw [hrep, hl, List.drop_left]
  · rw [hrep, hl, List.take_left, htake]

/-- C13: for every string and every environment the loop of
`expandEnvironmentVariables` leaves, whatever bound of at least one round it
is given, with the string the function returns. After a substitution, made
in a round that searched from any position `offset`, the part still to be
scanned is a suffix of the part scanned in that round and strictly shorter;
the inserted value lies wholly in front of the new search position; and the
next search finds nothing. -/
theorem expandEnvironmentVariables_terminates (env : QString → Option QString)
    (string : QString) :
    (∀ fuel : Nat, expandLoop env (fuel + 1) string (QRegExp.indexIn string 0)
      = some (expandEnvironmentVariables env string)) ∧
    (∀ (offset : Nat) (m : RegExpMatch), QRegExp.indexIn string offset = some m →
      ((QString.replace string m.index m.matchedLength
          (QProcessEnvironment.value env m.cap1)).drop
            (m.index + (QProcessEnvironment.value env m.cap1).length)
        <:+ string.drop offset) ∧
      ((QString.replace string m.index m.matchedLength
          (QProcessEnvironment.value env m.cap1)).drop
            (m.index + (QProcessEnvironment.value env m.cap1).length)).length
        < (string.drop offset).length ∧
      (QString.replace string m.index m.matchedLength
          (QProcessEnvironment.value env m.cap1)).take
            (m.index + (QProcessEnvironment.value env m.cap1).length)
        = string.take m.index ++ QProcessEnvironment.value env m.cap1 ∧
      QRegExp.indexIn
          (QString.replace string m.index m.matchedLength
            (QProcessEnvironment.value env m.cap1))
          (m.index + (QProcessEnvironment.value env m.cap1).length) = none) := by
  constructor
  · intro fuel
    cases h : QRegExp.indexIn string 0 with
    | none => simp [expandLoop, expandEnvironmentVariables, h]
    | some m =>
      have h1 := expandLoop_one_round env string m h fuel
      have h2 := expandLoop_one_round env string m h string.length
      rw [h1]
      simp only [expandEnvironmentVariables, h, h2, Option.getD_some]
  · intro offset m h
    obtain ⟨pre, suf, hs1, hs2, hs3, hrep, hdrop, htake⟩ := indexIn_round env string offset m h
    refine ⟨?_, ?_, htake, ?_⟩
    · rw [hdrop, hs1]
      exact ⟨pre ++ '$' :: '$' :: '(' :: (m.cap1 ++ [')']), by simp⟩
    · rw [hdrop, hs1]
      simp only [List.length_append, List.length_cons]
      omega
    · simp only [QRegExp.indexIn, hdrop]
      exact indexInFrom_no_close suf _ hs2

/-- C13 at concrete inputs: with `X` set to the text `$$(X)` the line `a$$(X)b`
becomes `a$$(X)b` and the loop has left (the inserted placeholder is not
expanded again); with `X` set to the empty string the line becomes `ab`;
and in the first round on `a$$(X)b` the part still to be scanned shrinks from
the whole line to `b`. -/
theorem expandEnvironmentVariables_terminates_witness :
    expandLoop (fun n => if n = "X".toList then some "$$(X)".toList else none) 1
        "a$$(X)b".toList (QRegExp.indexIn "a$$(X)b".toList 0) = some "a$$(X)b".toList ∧
    expandLoop (fun n => if n = "X".toList then some [] else none) 1
        "a$$(X)b".toList (QRegExp.indexIn "a$$(X)b".toList 0) = some "ab".toList ∧
    (QString.replace "a$$(X)b".toList 1 5 "$$(X)".toList).drop (1 + 5) = "b".toList ∧
    ((QString.replace "a$$(X)b".toList 1 5 "$$(X)".toList).drop (1 + 5)).length
      < ("a$$(X)b".toList.drop 0).length :=
  ⟨(expandEnvironmentVariables_terminates
      (fun n => if n = "X".toList then some "$$(X)".toList else none) "a$$(X)b".toList).1 0
      |>.trans (by decide),
   (expandEnvironmentVariables_terminates
      (fun n => if n = "X".toList then some [] else none) "a$$(X)b".toList).1 0
      |>.trans (by decide),
   by decide,
   ((expandEnvironmentVariables_terminates
      (fun n => if n = "X".toList then some "$$(X)".toList else none) "a$$(X)b".toList).2 0
      ⟨1, "X".toList, 5⟩ (by decide)).2.1⟩

end GenericProjectManager

namespace TextEditor

/-! ## Placing the tip -/

/-- C12: for every cursor position, every screen rectangle and every tip
that is not wider and not higher than the screen, on either platform, the
point `placeTip` moves the tip to keeps the whole tip inside the screen. -/
theorem placeTip_inside (win : Bool) (screen : QRect) (tipWidth tipHeight : Int) (pos : QPoint)
    (hw : tipWidth ≤ screen.width) (hh : tipHeight ≤ screen.height) :
    screen.x ≤ (placeTip win screen tipWidth tipHeight pos).x ∧
    (placeTip win screen tipWidth tipHeight pos).x + tipWidth ≤ screen.x + screen.width ∧
    screen.y ≤ (placeTip win screen tipWidth tipHeight pos).y ∧
    (placeTip win screen tipWidth tipHeight pos).y + tipHeight ≤ screen.y + screen.height := by
  unfold placeTip
  lift_lets
  intro p0 p1 p2 p3 p4 p5 p6
  have h3 : screen.y ≤ p3.y := by
    show screen.y ≤ (if p2.y < screen.y then ({ p2 with y := screen.y } : QPoint) else p2).y
    by_cases hc : p2.y < screen.y
    · rw [if_pos hc]
    · rw [if_neg hc]; omega
  have h4 : p4.x + tipWidth ≤ screen.x + screen.width ∧ p4.y = p3.y := by
    show (if p3.x + tipWidth > screen.x + screen.width then
        ({ p3 with x := screen.x + screen.width - tipWidth } : QPoint) else p3).x + tipWidth
          ≤ screen.x + screen.width ∧
      (if p3.x + tipWidth > screen.x + screen.width then
        ({ p3 with x := screen.x + screen.width - tipWidth } : QPoint) else p3).y = p3.y
    by_cases hc : p3.x + tipWidth > screen.x + screen.width
    · rw [if_pos hc]; dsimp only; omega
    · rw [if_neg hc]; omega
  have h5 : screen.x ≤ p5.x ∧ p5.x + tipWidth ≤ screen.x + screen.width ∧ p5.y = p4.y := by
    show screen.x ≤ (if p4.x < screen.x then ({ p4 with x := screen.x } : QPoint) else p4).x ∧
      (if p4.x < screen.x then ({ p4 with x := screen.x } : QPoint) else p4).x + tipWidth
        ≤ screen.x + screen.width ∧
      (if p4.x < screen.x then ({ p4 with x := screen.x } : QPoint) else p4).y = p4.y
    by_cases hc : p4.x < screen.x
    · rw [if_pos hc]; dsimp only; omega
    · rw [if_neg hc]; omega
  have h6 : p6.x = p5.x ∧ screen.y ≤ p6.y ∧ p6.y + tipHeight ≤ screen.y + screen.height := by
    show (if p5.y + tipHeight > screen.y + screen.height then
        ({ p5 with y := screen.y + screen.height - tipHeight } : QPoint) else p5).x = p5.x ∧
      screen.y ≤ (if p5.y + tipHeight > screen.y + screen.height then
        ({ p5 with y := screen.y + screen.height - tipHeight } : QPoint) else p5).y ∧
      (if p5.y + tipHeight > screen.y + screen.height then
        ({ p5 with y := screen.y + screen.height - tipHeight } : QPoint) else p5).y + tipHeight
        ≤ screen.y + screen.height
    by_cases hc : p5.y + tipHeight > screen.y + screen.height
    · rw [if_pos hc]; dsimp only; omega
    · rw [if_neg hc]; omega
  omega

/-- C12 at a concrete input: on a screen of 1920 by 1080 at the origin, a tip
of 200 by 50 asked for at the cursor position (1900, 1070) is moved to
(1698, 1012), and lies inside the screen. -/
theorem placeTip_inside_witness :
    placeTip false { x := 0, y := 0, width := 1920, height := 1080 } 200 50
        { x := 1900, y := 1070 } = { x := 1698, y := 1012 } ∧
    (0 : Int) ≤ (placeTip false { x := 0, y := 0, width := 1920, height := 1080 } 200 50
        { x := 1900, y := 1070 }).x ∧
    (placeTip false { x := 0, y := 0, width := 1920, height := 1080 } 200 50
        { x := 1900, y := 1070 }).x + 200 ≤ 0 + 1920 ∧
    (0 : Int) ≤ (placeTip false { x := 0, y := 0, width := 1920, height := 1080 } 200 50
        { x := 1900, y := 1070 }).y ∧
    (placeTip false { x := 0, y := 0, width := 1920, height := 1080 } 200 50
        { x := 1900, y := 1070 }).y + 50 ≤ 0 + 1080 :=
  ⟨by decide,
    placeTip_inside false { x := 0, y := 0, width := 1920, height := 1080 } 200 50
      { x := 1900, y := 1070 } (by decide) (by decide)⟩

/-! ## Setting the rectangle of the tip -/

/-- The warning is issued, and the members are left as they are, exactly
when the stored rectangle `m_rect` is not null and the widget passed is
null; the rectangle passed is not looked at. -/
theorem setTipRect_refuses_iff (t : ToolTip) (w : Option Nat) (rect : QRect) :
    ((setTipRect t w rect).2 = true ↔ (t.m_rect.isNull = false ∧ w = none)) ∧
    ((setTipRect t w rect).2 = true → (setTipRect t w rect).1 = t) ∧
    ((setTipRect t w rect).2 = false →
      (setTipRect t w rect).1 = { t with m_widget := w, m_rect := rect }) := by
  unfold setTipRect
  by_cases h : ¬ t.m_rect.isNull ∧ w.isNone
  · rw [if_pos h]
    simp only [Bool.not_eq_true, Option.isNone_iff_eq_none] at h
    simp [h.1, h.2]
  · rw [if_neg h]
    simp only [Bool.not_eq_true, Option.isNone_iff_eq_none] at h
    simp only [Bool.false_eq_true, false_iff, false_implies, implies_true, and_true]
    exact h

/-- C14, at the failing inputs. On the tool tip as constructed (stored
rectangle null), `setTipRect` with a null widget and the non-null rectangle
(0, 0, 10, 10) stores both and issues no warning, where the claim has it
refuse. On a tool tip that holds widget 1 and the rectangle (0, 0, 10, 10),
`setTipRect` with a null widget and the null rectangle warns and leaves the
members as they are, where the claim has it store. -/
theorem setTipRect_tests_stored_rect :
    QRect.isNull { x := 0, y := 0, width := 10, height := 10 } = false ∧
    setTipRect ToolTip.initial none { x := 0, y := 0, width := 10, height := 10 }
      = ({ m_widget := none, m_rect := { x := 0, y := 0, width := 10, height := 10 } }, false) ∧
    QRect.isNull { x := 0, y := 0, width := 0, height := 0 } = true ∧
    setTipRect { m_widget := some 1, m_rect := { x := 0, y := 0, width := 10, height := 10 } }
        none { x := 0, y := 0, width := 0, height := 0 }
      = ({ m_widget := some 1, m_rect := { x := 0, y := 0, width := 10, height := 10 } },
          true) := by
  refine ⟨by decide, by decide, by decide, by decide⟩

end TextEditor
